import Mathlib

/-!
Shallow embedding of the `graph_forks` fork-topology / vote-aggregation
algorithm of `src/ledger-tool/src/main.rs` (lines 486-739), together with
the data model it consumes (banks linked by parent references, validator
vote accounts).  Chain states are kept in an arena (a list of banks) and
parent links are resolved by slot lookup; walks are fuel-bounded iterative
loops, the fuel being large enough whenever parent slots strictly
decrease (which is how the acyclicity of the input is expressed here).
Machine integers (u64) are modelled as `Nat`; the single place where the
u64 range matters (the `u64::MAX` sentinel used for the lowest absent
vote slot) uses the explicit constant `2 ^ 64 - 1`.  The `assert_eq!` in
the per-slot stake aggregation is modelled by returning `Option`
(`none` = panic).  Floating-point formatting (`lamports_to_sol` with
`{:.1}` / default display) is approximated by exact rational decimal
rendering; no theorem below depends on those digits.
-/

namespace LedgerTool

abbrev Slot := Nat
abbrev Pubkey := Nat

/-- One entry of a vote state's vote deque (`Lockout`): the voted slot and
its confirmation count. -/
structure Lockout where
  slot : Nat
  confirmation_count : Nat
deriving Repr, DecidableEq

/-- `VoteState`: the validator node identity, the chronological list of
cast votes (oldest first) and the optional root slot. -/
structure VoteState where
  node_pubkey : Nat
  votes : List Lockout
  root_slot : Option Nat
deriving Repr, DecidableEq

/-- `VoteState::default()`: zero pubkey, no votes, no root. -/
def defaultVoteState : VoteState := ⟨0, [], none⟩

/-- A bank (chain state).  `parent_slot` is the arena link to the parent
bank (`none` at genesis); `vote_accounts` lists, in iteration order, the
`(stake, vote_state)` values of the bank's vote-account map — the
`Option` models `vote_account.vote_state()` being a `Result`, which the
source replaces by the default vote state on error. -/
structure Bank where
  slot : Nat
  epoch : Nat
  collector_id : Nat
  transaction_count : Nat
  parent_slot : Option Nat
  vote_accounts : List (Nat × Option VoteState)
deriving Repr, DecidableEq

/-- The collection of known (frozen) banks, in map-iteration order. -/
structure BankForks where
  banks : List Bank
deriving Repr, DecidableEq

/-- `bank_forks[slot]` / `frozen_banks` lookup by slot. -/
def findBank (bf : BankForks) (s : Slot) : Option Bank :=
  bf.banks.find? (fun b => b.slot = s)

/-- `bank.parent()`: resolve the parent link in the arena. -/
def Bank.parentIn (b : Bank) (bf : BankForks) : Option Bank :=
  b.parent_slot.bind (findBank bf)

/-- Fuel-bounded ancestor walk; with fuel `b.slot + 1` it reproduces
`bank.parents()` whenever parent slots strictly decrease. -/
def parentsAux (bf : BankForks) : Nat → Bank → List Bank
  | 0, _ => []
  | fuel + 1, b =>
    match b.parentIn bf with
    | none => []
    | some p => p :: parentsAux bf fuel p

/-- `bank.parents()`: the proper ancestors of `b`, nearest first. -/
def Bank.parentsIn (b : Bank) (bf : BankForks) : List Bank :=
  parentsAux bf (b.slot + 1) b

/-- Input well-formedness: every parent link points to a strictly
smaller slot (this is how the acyclicity guaranteed by the input
contract is expressed over the arena). -/
def ParentsDecrease (bf : BankForks) : Prop :=
  ∀ b ∈ bf.banks, ∀ ps, b.parent_slot = some ps → ps < b.slot

/-- Input well-formedness: parent links resolve inside the arena
(the source's parent references are always valid pointers). -/
def ParentsPresent (bf : BankForks) : Prop :=
  ∀ b ∈ bf.banks, ∀ ps, b.parent_slot = some ps → ∃ p ∈ bf.banks, p.slot = ps

/-- Input well-formedness: the bank collection is a map keyed by slot,
so slots are distinct. -/
def NodupSlots (bf : BankForks) : Prop :=
  (bf.banks.map Bank.slot).Nodup

instance (bf : BankForks) : Decidable (ParentsDecrease bf) := by
  unfold ParentsDecrease; infer_instance

instance (bf : BankForks) : Decidable (ParentsPresent bf) := by
  unfold ParentsPresent; infer_instance

instance (bf : BankForks) : Decidable (NodupSlots bf) := by
  unfold NodupSlots; infer_instance

/-- Lines 488-494: start from every frozen bank slot, remove every slot
that is an ancestor of some bank; what remains are the fork tips.  The
list order stands for the set's iteration order, derived from the input
order. -/
def fork_slots (bf : BankForks) : List Slot :=
  let keys := bf.banks.map Bank.slot
  let parentSlots := bf.banks.flatMap (fun b => (b.parentsIn bf).map Bank.slot)
  keys.filter (fun s => ¬ s ∈ parentSlots)

/-- A `LastVote` record: `(last vote slot, vote state snapshot, stake,
total stake snapshot)` (the tuple stored in `last_votes`). -/
structure LastVote where
  slot : Nat
  vote_state : VoteState
  stake : Nat
  total_stake : Nat
deriving Repr, DecidableEq

/-- Lines 502-506: the total stake of a bank, summed over all of its
vote-account entries. -/
def bankTotalStake (b : Bank) : Nat :=
  (b.vote_accounts.map Prod.fst).sum

/-- Association-list lookup with `HashMap::get` semantics. -/
def assocFind {β : Type} (k : Nat) : List (Nat × β) → Option β
  | [] => none
  | e :: rest => if e.1 = k then some e.2 else assocFind k rest

/-- Lines 507-521, per bank: the `LastVote` candidates contributed by one
bank, in vote-account iteration order.  A vote account with an invalid
vote state falls back to the default vote state; an empty vote history is
skipped. -/
def bankCandidates (b : Bank) : List (Pubkey × LastVote) :=
  b.vote_accounts.filterMap (fun e =>
    let vs := e.2.getD defaultVoteState
    vs.votes.getLast?.map
      (fun lv => (vs.node_pubkey, ⟨lv.slot, vs, e.1, bankTotalStake b⟩)))

/-- Lines 510-519: `last_votes.entry(..).or_insert(..)` followed by the
replace-on-strictly-greater-slot update. -/
def insertLastVote (m : List (Pubkey × LastVote)) (pk : Pubkey)
    (c : LastVote) : List (Pubkey × LastVote) :=
  match assocFind pk m with
  | none => m ++ [(pk, c)]
  | some e =>
    if e.slot < c.slot then
      m.map (fun kv => if kv.1 = pk then (pk, c) else kv)
    else m

/-- The candidates of all tip banks, in processing order. -/
def allCandidates (bf : BankForks) : List (Pubkey × LastVote) :=
  (fork_slots bf).flatMap (fun fs =>
    match findBank bf fs with
    | none => []
    | some bank => bankCandidates bank)

/-- Lines 497-522: the last vote made by each validator, collected over
the tip banks only. -/
def last_votes (bf : BankForks) : List (Pubkey × LastVote) :=
  (allCandidates bf).foldl (fun m pc => insertLastVote m pc.1 pc.2) []

/-- Lines 528-533: one step of the per-slot `(vote count, stake,
total stake)` aggregation; `none` models the `assert_eq!` panic when an
existing entry's total-stake snapshot disagrees. -/
def insertSlotStake (m : List (Slot × (Nat × Nat × Nat))) (lv : LastVote) :
    Option (List (Slot × (Nat × Nat × Nat))) :=
  match assocFind lv.slot m with
  | none => some (m ++ [(lv.slot, (1, lv.stake, lv.total_stake))])
  | some e =>
    if e.2.2 = lv.total_stake then
      some (m.map (fun kv =>
        if kv.1 = lv.slot then (lv.slot, (e.1 + 1, e.2.1 + lv.stake, e.2.2))
        else kv))
    else none

/-- Lines 526-534: stake distribution at the nodes containing each
validator's last vote; `none` models the asserted invariant violation. -/
def slot_stake_and_vote_count (lvs : List (Pubkey × LastVote)) :
    Option (List (Slot × (Nat × Nat × Nat))) :=
  lvs.foldlM (fun m kv => insertSlotStake m kv.2) []

/-- `GraphVoteAccountMode` (lines 432-448). -/
inductive GraphVoteAccountMode
  | Disabled
  | LastOnly
  | WithHistory
deriving Repr, DecidableEq

def GraphVoteAccountMode.is_enabled : GraphVoteAccountMode → Bool
  | .Disabled => false
  | _ => true

/-- `GraphConfig` (lines 481-484). -/
structure GraphConfig where
  include_all_votes : Bool
  vote_account_mode : GraphVoteAccountMode
deriving Repr, DecidableEq

/-- Modelled: the one-fractional-digit rendering `{:.1}` of the f64
quotient `num / den`, approximated by exact rational rounding (half up);
`den = 0` yields the f64 infinity/NaN spellings.  No theorem depends on
these digits. -/
def fmtDec1 (num den : Nat) : String :=
  if den = 0 then (if num = 0 then "NaN" else "inf")
  else
    let t := (num * 20 + den) / (2 * den)
    toString (t / 10) ++ "." ++ toString (t % 10)

/-- Modelled: default f64 display of `lamports_to_sol lamports`
(`lamports / 10^9`), approximated by the exact decimal with trailing
zeros trimmed.  No theorem depends on these digits. -/
def fmtSolDisplay (lamports : Nat) : String :=
  let ip := lamports / 1000000000
  let fp := lamports % 1000000000
  if fp = 0 then toString ip
  else
    let digits := toString fp
    let padded := String.mk (List.replicate (9 - digits.length) '0') ++ digits
    let trimmed := String.mk (padded.data.reverse.dropWhile (fun c => c = '0')).reverse
    toString ip ++ "." ++ trimmed

/-- The statements pushed onto the `dot` vector, one constructor per
`dot.push` site of `graph_forks`; `render` below reproduces the exact
format strings. -/
inductive Stmt
  /-- A fixed framing line ("digraph \x7b", subgraph header, closers). -/
  | raw (s : String)
  /-- Lines 560-588: a bank node statement. -/
  | node (slot epoch leader : Nat) (tx : Option Nat)
      (vi : Option (Nat × Nat × Nat)) (first : Bool)
  /-- Line 596: the dangling edge to the unknown-history placeholder. -/
  | danglingEdge (slot : Slot)
  /-- Lines 612-618: a child → parent edge with its slot distance and
  epoch-crossing flag. -/
  | edge (child parent dist : Nat) (cross : Bool)
  /-- Lines 674-681: the per-validator latest-vote annotation node. -/
  | lastVoteNode (pk stake root : Nat) (hist : String)
  /-- Lines 683-691: the dashed edge from the latest-vote node to the
  voted slot (`none` = the "..." placeholder). -/
  | lastVoteEdge (pk : Pubkey) (target : Option Slot)
  /-- Lines 697-702: the absent-vote summary node. -/
  | absentSummary (votes stake total : Nat)
  /-- Lines 709-721: a dotted all-votes annotation node. -/
  | allVotesNode (pk voteSlot root : Nat) (hist : String)
  /-- Lines 723-732: a dotted all-votes edge. -/
  | allVotesEdge (pk voteSlot : Nat) (present : Bool)
deriving Repr, DecidableEq

/-- The `"slot N (conf=C)"` lines of a vote history, joined by real
newlines (lines 656-662 and 715-720). -/
def voteHistoryText (vs : VoteState) : String :=
  String.intercalate "\n"
    (vs.votes.map (fun v =>
      "slot " ++ toString v.slot ++ " (conf=" ++ toString v.confirmation_count ++ ")"))

/-- Lines 649-673: the mode-dependent history text of a latest-vote
annotation node. -/
def lastVoteHistoryText (mode : GraphVoteAccountMode) (vs : VoteState) : String :=
  match mode with
  | .WithHistory => "vote history:\n" ++ voteHistoryText vs
  | _ =>
    "last vote slot: " ++
      ((vs.votes.getLast?.map (fun v => toString v.slot)).getD "none")

/-- The exact text of each pushed statement.  Raw-string `\n` in the
source is a literal backslash-n in the dot output; `\n` inside ordinary
format strings (the transactions / votes fragments and the history
joins) is a real newline.  Both are reproduced. -/
def render : Stmt → String
  | .raw s => s
  | .node slot epoch leader tx vi first =>
    "    \"" ++ toString slot ++ "\"[label=\"" ++ toString slot ++
      " (epoch " ++ toString epoch ++ ")\\nleader: " ++ toString leader ++
      (match tx with
       | some d => "\ntransactions: " ++ toString d
       | none => "") ++
      (match vi with
       | some (v, st, tot) =>
         "\nvotes: " ++ toString v ++ ", stake: " ++ fmtDec1 st 1000000000 ++
           " SOL (" ++ fmtDec1 (st * 100) tot ++ "%)"
       | none => "") ++
      "\",style=\"" ++ (if first then "filled," else "") ++ "\"];"
  | .danglingEdge slot =>
    "    \"" ++ toString slot ++ "\" -> \"...\" [dir=back]"
  | .edge child parent dist cross =>
    "    \"" ++ toString child ++ "\" -> \"" ++ toString parent ++ "\"[" ++
      (if dist > 1 then
        "label=\"" ++ toString (dist - 1) ++ " slots\",color=red"
       else "color=blue") ++
      ",dir=back,penwidth=" ++ (if cross then "5" else "1") ++ "];"
  | .lastVoteNode pk stake root hist =>
    "  \"last vote " ++ toString pk ++
      "\"[shape=box,label=\"Latest validator vote: " ++ toString pk ++
      "\\nstake: " ++ fmtSolDisplay stake ++ " SOL\\nroot slot: " ++
      toString root ++ "\\n" ++ hist ++ "\"];"
  | .lastVoteEdge pk target =>
    "  \"last vote " ++ toString pk ++ "\" -> \"" ++
      (match target with
       | some s => toString s
       | none => "...") ++
      "\" [style=dashed,label=\"latest vote\"];"
  | .absentSummary votes stake total =>
    "    \"...\"[label=\"...\\nvotes: " ++ toString votes ++ ", stake: " ++
      fmtDec1 stake 1000000000 ++ " SOL " ++ fmtDec1 (stake * 100) total ++ "%\"];"
  | .allVotesNode pk voteSlot root hist =>
    "  \"" ++ toString pk ++ " vote " ++ toString voteSlot ++
      "\"[shape=box,style=dotted,label=\"validator vote: " ++ toString pk ++
      "\\nroot slot: " ++ toString root ++ "\\nvote history:\\n" ++ hist ++ "\"];"
  | .allVotesEdge pk voteSlot present =>
    "  \"" ++ toString pk ++ " vote " ++ toString voteSlot ++ "\" -> \"" ++
      (if present then toString voteSlot else "...") ++
      "\" [style=dotted,label=\"vote\"];"

/-- The secondary all-votes index: validator → voted slot → first
vote-state snapshot seen. -/
abbrev AllVotes := List (Pubkey × List (Slot × VoteState))

/-- Lines 548-556, per bank: the `(pubkey, last vote slot, vote state)`
entries a bank contributes to the all-votes index.  Only the final
element of each vote history is offered. -/
def bankLastVoteEntries (b : Bank) : List (Pubkey × Slot × VoteState) :=
  b.vote_accounts.filterMap (fun e =>
    let vs := e.2.getD defaultVoteState
    vs.votes.getLast?.map (fun lv => (vs.node_pubkey, lv.slot, vs)))

/-- Lines 552-555: `all_votes.entry(pk).or_default()` then
`entry(slot).or_insert_with(vote_state)`. -/
def insertAllVote (m : AllVotes) (pk : Pubkey) (s : Slot) (vs : VoteState) :
    AllVotes :=
  match assocFind pk m with
  | none => m ++ [(pk, [(s, vs)])]
  | some inner =>
    match assocFind s inner with
    | some _ => m
    | none => m.map (fun kv => if kv.1 = pk then (pk, inner ++ [(s, vs)]) else kv)

/-- The mutable state of the chain-walking loop (lines 541-624). -/
structure WalkState where
  styled_slots : List Slot
  all_votes : AllVotes
  stmts : List Stmt
deriving Repr, DecidableEq

/-- One tip's walk (the `loop` of lines 547-623): collect all-votes
entries, emit the node statement on first visit, then either stop at
genesis (emitting the dangling edge when the slot is positive) or emit
the parent edge and continue at the parent. -/
def walkBank (bf : BankForks) (ssvc : List (Slot × (Nat × Nat × Nat))) :
    Nat → Bank → Bool → WalkState → WalkState
  | 0, _, _, st => st
  | fuel + 1, b, first, st =>
    let st1 : WalkState :=
      { st with
        all_votes :=
          (bankLastVoteEntries b).foldl
            (fun av e => insertAllVote av e.1 e.2.1 e.2.2) st.all_votes }
    let st2 : WalkState :=
      if b.slot ∈ st1.styled_slots then st1
      else
        { st1 with
          stmts := st1.stmts ++
            [Stmt.node b.slot b.epoch b.collector_id
              ((b.parentIn bf).map (fun p => b.transaction_count - p.transaction_count))
              (assocFind b.slot ssvc) first]
          styled_slots := st1.styled_slots ++ [b.slot] }
    match b.parentIn bf with
    | none =>
      if b.slot > 0 then
        { st2 with stmts := st2.stmts ++ [Stmt.danglingEdge b.slot] }
      else st2
    | some p =>
      walkBank bf ssvc fuel p false
        { st2 with
          stmts := st2.stmts ++
            [Stmt.edge b.slot p.slot (b.slot - p.slot) (decide (p.epoch < b.epoch))] }

/-- Lines 543-624: walk every tip chain, threading the styled-slot set,
the all-votes index and the emitted statements. -/
def walkAll (bf : BankForks) (ssvc : List (Slot × (Nat × Nat × Nat))) : WalkState :=
  (fork_slots bf).foldl
    (fun st fs =>
      match findBank bf fs with
      | none => st
      | some b => walkBank bf ssvc (b.slot + 1) b true st)
    ⟨[], [], []⟩

/-- The mutable state of the last-vote strafing loop (lines 629-693). -/
structure StrafeState where
  all_votes : AllVotes
  absent_stake : Nat
  absent_votes : Nat
  lowest_last_vote_slot : Nat
  lowest_total_stake : Nat
  stmts : List Stmt
deriving Repr, DecidableEq

/-- Lines 633-692, one `last_votes` entry: remove the validator's own
last-vote slot from the all-votes index, account for an absent vote, and
(when the vote-account mode is enabled) emit the latest-vote annotation
node and edge. -/
def strafeStep (cfg : GraphConfig) (styled : List Slot)
    (st : StrafeState) (kv : Pubkey × LastVote) : StrafeState :=
  let av : AllVotes :=
    match assocFind kv.1 st.all_votes with
    | none => st.all_votes
    | some inner =>
      st.all_votes.map (fun e =>
        if e.1 = kv.1 then (kv.1, inner.filter (fun p => ¬ p.1 = kv.2.slot))
        else e)
  let present := kv.2.slot ∈ styled
  let st1 : StrafeState :=
    if present then { st with all_votes := av }
    else
      { st with
        all_votes := av
        lowest_last_vote_slot :=
          if kv.2.slot < st.lowest_last_vote_slot then kv.2.slot
          else st.lowest_last_vote_slot
        lowest_total_stake :=
          if kv.2.slot < st.lowest_last_vote_slot then kv.2.total_stake
          else st.lowest_total_stake
        absent_votes := st.absent_votes + 1
        absent_stake := st.absent_stake + kv.2.stake }
  if cfg.vote_account_mode.is_enabled then
    { st1 with
      stmts := st1.stmts ++
        [Stmt.lastVoteNode kv.1 kv.2.stake (kv.2.vote_state.root_slot.getD 0)
          (lastVoteHistoryText cfg.vote_account_mode kv.2.vote_state),
         Stmt.lastVoteEdge kv.1 (if present then some kv.2.slot else none)] }
  else st1

/-- Lines 629-693: the full strafing pass over `last_votes`, starting
from the walked all-votes index; the lowest-slot sentinel is
`u64::MAX`. -/
def strafeAll (cfg : GraphConfig) (styled : List Slot) (av : AllVotes)
    (lvs : List (Pubkey × LastVote)) : StrafeState :=
  lvs.foldl (strafeStep cfg styled) ⟨av, 0, 0, 2 ^ 64 - 1, 0, []⟩

/-- Lines 706-735: the include-all-votes rendering pass over the
(strafed) all-votes index. -/
def allVotesStmts (styled : List Slot) (av : AllVotes) : List Stmt :=
  av.flatMap (fun e =>
    e.2.flatMap (fun sv =>
      [Stmt.allVotesNode e.1 sv.1 (sv.2.root_slot.getD 0) (voteHistoryText sv.2),
       Stmt.allVotesEdge e.1 sv.1 (decide (sv.1 ∈ styled))]))

/-- The whole of `graph_forks` at the statement level: `none` models the
asserted invariant violation (panic before any output). -/
def graphStmts (bf : BankForks) (cfg : GraphConfig) : Option (List Stmt) :=
  match slot_stake_and_vote_count (last_votes bf) with
  | none => none
  | some ssvc =>
    let w := walkAll bf ssvc
    let st := strafeAll cfg w.styled_slots w.all_votes (last_votes bf)
    some
      ([Stmt.raw "digraph \x7b", Stmt.raw "  subgraph cluster_banks \x7b",
        Stmt.raw "    style=invis"] ++
       w.stmts ++ [Stmt.raw "  \x7d"] ++
       st.stmts ++
       (if st.absent_votes > 0 then
          [Stmt.absentSummary st.absent_votes st.absent_stake st.lowest_total_stake]
        else []) ++
       (if cfg.include_all_votes then allVotesStmts w.styled_slots st.all_votes
        else []) ++
       [Stmt.raw "\x7d"])

/-- `graph_forks` (lines 487-739): the serialized dot document, `none`
on the asserted invariant violation. -/
def graph_forks (bf : BankForks) (cfg : GraphConfig) : Option String :=
  (graphStmts bf cfg).map (fun l => String.intercalate "\n" (l.map render))

/-- The slots of a bank's proper ancestors (its "is an ancestor of"
witnesses). -/
def ancestorSlots (bf : BankForks) (b : Bank) : List Slot :=
  (b.parentsIn bf).map Bank.slot

/-- The slot of a bank-node statement (and `none` on anything else). -/
def nodeSlot : Stmt → Option Slot
  | .node s _ _ _ _ _ => some s
  | _ => none

/-- Statements producible by the chain walk. -/
def walkish : Stmt → Bool
  | .node _ _ _ _ _ _ => true
  | .danglingEdge _ => true
  | .edge _ _ _ _ => true
  | _ => false

/-- Statements producible by the last-vote strafing pass. -/
def strafish : Stmt → Bool
  | .lastVoteNode _ _ _ _ => true
  | .lastVoteEdge _ _ => true
  | _ => false

/-- Statements producible by the include-all-votes pass. -/
def allvotish : Stmt → Bool
  | .allVotesNode _ _ _ _ => true
  | .allVotesEdge _ _ _ => true
  | _ => false

/-- The rendered node set of the pipeline: the styled slots left by the
chain walk (fed with the per-slot stake table the pipeline computes). -/
def renderedSlots (bf : BankForks) : List Slot :=
  (walkAll bf ((slot_stake_and_vote_count (last_votes bf)).getD [])).styled_slots

/-- The largest slot of the collection (0 when empty). -/
def maxSlot (bf : BankForks) : Nat :=
  (bf.banks.map Bank.slot).foldr max 0

/-- The `LastVote` candidates offered for one validator, in processing
order. -/
def candidatesFor (bf : BankForks) (pk : Pubkey) : List LastVote :=
  ((allCandidates bf).filter (fun pc => pc.1 = pk)).map Prod.snd

/-- The spec's tie-break rule, stated on a candidate list: keep the
candidate with the strictly greatest slot seen so far (so the first-seen
wins ties). -/
def keepHighestFirstSeen (l : List LastVote) : Option LastVote :=
  l.foldl
    (fun acc c =>
      match acc with
      | none => some c
      | some a => some (if a.slot < c.slot then c else a))
    none

/-- The `(lowest absent slot, its total stake)` accumulator of the
strafing pass, extracted as its own fold. -/
def lowestPair (styled : List Slot) :
    List (Pubkey × LastVote) → Nat × Nat → Nat × Nat
  | [], p => p
  | kv :: t, p =>
    lowestPair styled t
      (if kv.2.slot ∉ styled ∧ kv.2.slot < p.1 then
        (kv.2.slot, kv.2.total_stake)
       else p)

/-! ### Concrete inputs used by witnesses and counterexamples -/

/-- The configuration with the include-all-votes mode on. -/
def cfgAll : GraphConfig := ⟨true, GraphVoteAccountMode.Disabled⟩

/-- The spec's concrete scenario topology: chains 0 → 5 → 10 → 12 and
0 → 5 → 8. -/
def cexChain : BankForks :=
  ⟨[⟨0, 0, 0, 0, none, []⟩, ⟨5, 0, 0, 0, some 0, []⟩,
    ⟨10, 0, 0, 0, some 5, []⟩, ⟨12, 0, 0, 0, some 10, []⟩,
    ⟨8, 0, 0, 0, some 5, []⟩]⟩

/-- The configuration with every optional rendering mode off. -/
def cfgPlain : GraphConfig := ⟨false, .Disabled⟩

/-- Two parentless banks, listed in one order… -/
def cexOrder1 : BankForks := ⟨[⟨1, 0, 0, 0, none, []⟩, ⟨2, 0, 0, 0, none, []⟩]⟩

/-- …and the same two banks listed in the other order. -/
def cexOrder2 : BankForks := ⟨[⟨2, 0, 0, 0, none, []⟩, ⟨1, 0, 0, 0, none, []⟩]⟩

/-- A vote state of validator 7 whose only vote is on slot 0. -/
def cexC2vs : VoteState := ⟨7, [⟨0, 1⟩], none⟩

/-- The genesis bank carrying validator 7's only vote. -/
def cexC2bank0 : Bank := ⟨0, 0, 0, 0, none, [(10, some cexC2vs)]⟩

/-- Genesis (with the vote) plus a tip with an empty vote-account map:
the only place validator 7's vote is recorded is the non-tip bank. -/
def cexC2 : BankForks := ⟨[cexC2bank0, ⟨1, 0, 0, 0, some 0, []⟩]⟩

/-- Two single-bank forks whose vote-account snapshots give validator 7
candidates with different total-stake snapshots (10 on slot 1, 20 on
slot 2). -/
def cexC3 : BankForks :=
  ⟨[⟨1, 0, 0, 0, none, [(10, some ⟨7, [⟨1, 1⟩], none⟩)]⟩,
    ⟨2, 0, 0, 0, none, [(20, some ⟨7, [⟨2, 1⟩], none⟩)]⟩]⟩

/-- Two single-bank forks where validators 7 and 8 both last voted on
slot 5 but under different total-stake snapshots (10 vs 20). -/
def cexSameSlot : BankForks :=
  ⟨[⟨1, 0, 0, 0, none, [(10, some ⟨7, [⟨5, 1⟩], none⟩)]⟩,
    ⟨2, 0, 0, 0, none, [(20, some ⟨8, [⟨5, 1⟩], none⟩)]⟩]⟩

/-- A vote state of validator 7 with a two-slot history (3 then 5). -/
def cexC6vs : VoteState := ⟨7, [⟨3, 1⟩, ⟨5, 2⟩], none⟩

/-- The single bank carrying that vote state. -/
def cexC6bank : Bank := ⟨1, 0, 0, 0, none, [(5, some cexC6vs)]⟩

/-- A one-bank collection whose only vote state has the history [3, 5]. -/
def cexC6 : BankForks := ⟨[cexC6bank]⟩

/-- The per-slot stake table the pipeline actually computes for `cexC6`. -/
def cexC6ssvc : List (Slot × (Nat × Nat × Nat)) :=
  (slot_stake_and_vote_count (last_votes cexC6)).getD []

/-- The statement list the pipeline produces for `cexC6` under the plain
configuration. -/
def cexC6stmts : List Stmt := (graphStmts cexC6 cfgPlain).getD []

/-- The statement list the pipeline produces for `cexC6` with the
include-all-votes mode on. -/
def cexC6stmtsAll : List Stmt := (graphStmts cexC6 cfgAll).getD []

/-- The `LastVote` record the pipeline retains for validator 7 of
`cexC6`. -/
def cexC6lv : LastVote := ⟨5, cexC6vs, 5, 5⟩

/-- The `LastVote` record the pipeline retains for validator 7 of
`cexC3`. -/
def cexC3lv : LastVote := ⟨2, ⟨7, [⟨2, 1⟩], none⟩, 20, 20⟩

/-! ### Helper lemmas -/

/-- Splitting a mapped sum along a decidable predicate. -/
theorem sum_map_filter_split {α : Type} (l : List α) (f : α → Nat)
    (p : α → Bool) :
    ((l.filter p).map f).sum +
      ((l.filter (fun a => !(p a))).map f).sum = (l.map f).sum := by
  induction l with
  | nil => simp
  | cons a t ih =>
    cases h : p a <;> simp [List.filter_cons, h] <;> omega

/-- How one strafing step changes the absent-stake accumulator. -/
theorem strafeStep_absent_stake (cfg : GraphConfig) (styled : List Slot)
    (st : StrafeState) (kv : Pubkey × LastVote) :
    (strafeStep cfg styled st kv).absent_stake =
      if kv.2.slot ∈ styled then st.absent_stake
      else st.absent_stake + kv.2.stake := by
  unfold strafeStep
  by_cases h : kv.2.slot ∈ styled <;>
    simp only [h, if_true, if_false, ite_true, ite_false] <;>
    cases cfg.vote_account_mode.is_enabled <;> simp

/-- The strafing fold accumulates exactly the stakes of the entries whose
last-vote slot is not styled. -/
theorem strafe_fold_absent_stake (cfg : GraphConfig) (styled : List Slot) :
    ∀ (lvs : List (Pubkey × LastVote)) (st : StrafeState),
      (lvs.foldl (strafeStep cfg styled) st).absent_stake =
        st.absent_stake +
          ((lvs.filter (fun kv => !(decide (kv.2.slot ∈ styled)))).map
            (fun kv => kv.2.stake)).sum := by
  intro lvs
  induction lvs with
  | nil => intro st; simp
  | cons kv t ih =>
    intro st
    by_cases h : kv.2.slot ∈ styled <;>
      simp [List.filter_cons, h, ih, strafeStep_absent_stake] <;> omega

theorem assocFind_mem {β : Type} {k : Nat} {v : β} :
    ∀ {l : List (Nat × β)}, assocFind k l = some v → (k, v) ∈ l := by
  intro l
  induction l with
  | nil => intro h; simp [assocFind] at h
  | cons e t ih =>
    obtain ⟨ek, ev⟩ := e
    intro h
    by_cases he : ek = k
    · subst he
      simp [assocFind] at h
      subst h
      exact List.mem_cons_self _ _
    · simp [assocFind, he] at h
      exact List.mem_cons_of_mem _ (ih h)

theorem assocFind_none {β : Type} {k : Nat} :
    ∀ {l : List (Nat × β)}, assocFind k l = none → ∀ e ∈ l, e.1 ≠ k := by
  intro l
  induction l with
  | nil => intro _ e he; simp at he
  | cons a t ih =>
    intro h e he
    by_cases ha : a.1 = k
    · simp [assocFind, ha] at h
    · rcases List.mem_cons.mp he with rfl | he2
      · exact ha
      · exact ih (by simpa [assocFind, ha] using h) e he2

theorem assocFind_append_self {β : Type} {k : Nat} {v : β}
    {m : List (Nat × β)} (h : assocFind k m = none) :
    assocFind k (m ++ [(k, v)]) = some v := by
  induction m with
  | nil => simp [assocFind]
  | cons a t ih =>
    by_cases ha : a.1 = k
    · simp [assocFind, ha] at h
    · simp [assocFind, ha] at h ⊢
      exact ih h

theorem assocFind_append_ne {β : Type} {q k : Nat} {v : β}
    {m : List (Nat × β)} (h : q ≠ k) :
    assocFind q (m ++ [(k, v)]) = assocFind q m := by
  induction m with
  | nil => simp [assocFind, Ne.symm h]
  | cons a t ih =>
    by_cases ha : a.1 = q <;> simp [assocFind, ha, ih]

theorem assocFind_map_update_self {β : Type} {k : Nat} {w : β}
    {m : List (Nat × β)} {e : β} (h : assocFind k m = some e) :
    assocFind k (m.map (fun kv => if kv.1 = k then (k, w) else kv)) = some w := by
  induction m with
  | nil => simp [assocFind] at h
  | cons a t ih =>
    by_cases ha : a.1 = k
    · simp [assocFind, ha]
    · simp [assocFind, ha] at h ⊢
      exact ih h

theorem assocFind_map_update_ne {β : Type} {q k : Nat} {w : β}
    {m : List (Nat × β)} (h : q ≠ k) :
    assocFind q (m.map (fun kv => if kv.1 = k then (k, w) else kv)) =
      assocFind q m := by
  induction m with
  | nil => simp [assocFind]
  | cons a t ih =>
    obtain ⟨ak, av⟩ := a
    by_cases ha : ak = k
    · subst ha
      simp [assocFind, Ne.symm h, ih]
    · simp [assocFind, ha]
      by_cases haq : ak = q <;> simp [assocFind, haq, ih]

theorem mem_of_findBank {bf : BankForks} {s : Slot} {b : Bank}
    (h : findBank bf s = some b) : b ∈ bf.banks ∧ b.slot = s := by
  refine ⟨List.mem_of_find?_eq_some h, ?_⟩
  have := List.find?_some h
  exact of_decide_eq_true this

/-! ### Claim theorems -/

/-- C5: the stake of the validators whose last-vote slot is in the
rendered (styled) node set, plus the absent-stake total accumulated by
the strafing pass, equals the total stake of all validators holding a
`LastVote` record. -/
theorem C5_stake_conservation (bf : BankForks) (cfg : GraphConfig)
    (ssvc : List (Slot × (Nat × Nat × Nat))) :
    (((last_votes bf).filter
        (fun kv => decide (kv.2.slot ∈ (walkAll bf ssvc).styled_slots))).map
      (fun kv => kv.2.stake)).sum +
      (strafeAll cfg (walkAll bf ssvc).styled_slots (walkAll bf ssvc).all_votes
        (last_votes bf)).absent_stake =
    ((last_votes bf).map (fun kv => kv.2.stake)).sum := by
  unfold strafeAll
  rw [strafe_fold_absent_stake]
  simpa using
    sum_map_filter_split (last_votes bf) (fun kv => kv.2.stake)
      (fun kv => decide (kv.2.slot ∈ (walkAll bf ssvc).styled_slots))

/-- C1 counterexample: the same two banks supplied in two iteration
orders (the bank lists are permutations of one another) yield different
serialized documents. -/
theorem C1_counterexample :
    cexOrder1.banks.Perm cexOrder2.banks ∧
      graph_forks cexOrder1 cfgPlain ≠ graph_forks cexOrder2 cfgPlain := by
  exact ⟨by decide, by decide⟩

/-- C2 counterexample: validator 7's only recorded vote lives on the
known genesis bank, which is not a resolved tip; the aggregation gives
it no `LastVote` record. -/
theorem C2_counterexample :
    (cexC2bank0 ∈ cexC2.banks ∧ (10, some cexC2vs) ∈ cexC2bank0.vote_accounts ∧
      cexC2vs.node_pubkey = 7 ∧ cexC2vs.votes ≠ []) ∧
    cexC2bank0.slot ∉ fork_slots cexC2 ∧
    assocFind 7 (last_votes cexC2) = none := by decide

/-- C3 counterexample: two `LastVote` candidates for the same validator
(7) disagree on the total-stake snapshot, yet the computation does not
abort — it completes and produces output. -/
theorem C3_counterexample :
    (∃ b1 ∈ cexC3.banks, ∃ b2 ∈ cexC3.banks, ∃ c1 ∈ bankCandidates b1,
      ∃ c2 ∈ bankCandidates b2,
        c1.1 = c2.1 ∧ c1.2.total_stake ≠ c2.2.total_stake) ∧
    (graph_forks cexC3 cfgPlain).isSome = true := by decide

/-- C6 counterexample: slot 3 appears in validator 7's vote history on
the walked chain state, but the all-votes index records only the final
slot 5 of that history. -/
theorem C6_counterexample :
    (cexC6bank ∈ cexC6.banks ∧ (5, some cexC6vs) ∈ cexC6bank.vote_accounts ∧
      3 ∈ cexC6vs.votes.map Lockout.slot) ∧
    assocFind 3 ((assocFind 7 ((walkAll cexC6 cexC6ssvc).all_votes)).getD []) =
      none ∧
    assocFind 5 ((assocFind 7 ((walkAll cexC6 cexC6ssvc).all_votes)).getD []) ≠
      none := by decide

theorem insertLastVote_mem {m : List (Pubkey × LastVote)} {pk : Pubkey}
    {c : LastVote} :
    ∀ e ∈ insertLastVote m pk c, e ∈ m ∨ e = (pk, c) := by
  intro e he
  unfold insertLastVote at he
  cases h0 : assocFind pk m with
  | none =>
    simp only [h0] at he
    rcases List.mem_append.mp he with h | h
    · exact Or.inl h
    · simp at h; exact Or.inr h
  | some a =>
    simp only [h0] at he
    by_cases hlt : a.slot < c.slot
    · rw [if_pos hlt] at he
      rcases List.mem_map.mp he with ⟨kv, hkv, rfl⟩
      by_cases hk : kv.1 = pk
      · simp [hk]
      · simp [hk]; exact Or.inl hkv
    · rw [if_neg hlt] at he
      exact Or.inl he

theorem lastVote_fold_subset (C : List (Pubkey × LastVote)) :
    ∀ (l m : List (Pubkey × LastVote)), (∀ e ∈ m, e ∈ C) → (∀ e ∈ l, e ∈ C) →
      ∀ e ∈ l.foldl (fun m pc => insertLastVote m pc.1 pc.2) m, e ∈ C := by
  intro l
  induction l with
  | nil => intro m hm _ e he; exact hm e he
  | cons pc t ih =>
    intro m hm hl e he
    refine ih _ ?_ (fun x hx => hl x (List.mem_cons_of_mem _ hx)) e he
    intro x hx
    rcases insertLastVote_mem x hx with h | rfl
    · exact hm x h
    · exact hl _ (List.mem_cons_self _ _)

/-- Every retained `LastVote` entry is one of the candidates offered by
the tip banks. -/
theorem last_votes_subset (bf : BankForks) :
    ∀ e ∈ last_votes bf, e ∈ allCandidates bf := by
  intro e he
  exact lastVote_fold_subset (allCandidates bf) (allCandidates bf) []
    (by simp) (fun x hx => hx) e he

/-- C2 (amended): every `LastVote` record derives from the vote-account
state of a resolved tip bank; the aggregation reads nothing else. -/
theorem C2_amended (bf : BankForks) (pk : Pubkey) (r : LastVote)
    (h : assocFind pk (last_votes bf) = some r) :
    ∃ fs ∈ fork_slots bf, ∃ b, findBank bf fs = some b ∧
      (pk, r) ∈ bankCandidates b := by
  have hmem : (pk, r) ∈ allCandidates bf :=
    last_votes_subset bf _ (assocFind_mem h)
  rcases List.mem_flatMap.mp hmem with ⟨fs, hfs, hin⟩
  refine ⟨fs, hfs, ?_⟩
  cases hb : findBank bf fs with
  | none => rw [hb] at hin; simp at hin
  | some b => rw [hb] at hin; exact ⟨b, rfl, hin⟩

theorem C2_amended_witness :
    assocFind 7 (last_votes cexC3) = some cexC3lv ∧
      ∃ fs ∈ fork_slots cexC3, ∃ b, findBank cexC3 fs = some b ∧
        (7, cexC3lv) ∈ bankCandidates b :=
  ⟨by decide, C2_amended cexC3 7 cexC3lv (by decide)⟩

theorem insertAllVote_mem {m : AllVotes} {pk : Pubkey} {s : Slot}
    {vs : VoteState} :
    ∀ e ∈ insertAllVote m pk s vs, ∀ sv ∈ e.2,
      (∃ e0 ∈ m, e0.1 = e.1 ∧ sv ∈ e0.2) ∨ (e.1 = pk ∧ sv = (s, vs)) := by
  intro e he sv hsv
  unfold insertAllVote at he
  cases h0 : assocFind pk m with
  | none =>
    simp only [h0] at he
    rcases List.mem_append.mp he with h | h
    · exact Or.inl ⟨e, h, rfl, hsv⟩
    · simp at h
      subst h
      simp at hsv
      exact Or.inr ⟨rfl, hsv⟩
  | some inner =>
    simp only [h0] at he
    cases h1 : assocFind s inner with
    | some _ =>
      simp only [h1] at he
      exact Or.inl ⟨e, he, rfl, hsv⟩
    | none =>
      simp only [h1] at he
      rcases List.mem_map.mp he with ⟨kv, hkv, rfl⟩
      by_cases hk : kv.1 = pk
      · have he2 : (if kv.1 = pk then (pk, inner ++ [(s, vs)]) else kv) =
            (pk, inner ++ [(s, vs)]) := if_pos hk
        rw [he2] at hsv ⊢
        rcases List.mem_append.mp hsv with h | h
        · exact Or.inl ⟨(pk, inner), assocFind_mem h0, rfl, h⟩
        · simp at h
          exact Or.inr ⟨rfl, h⟩
      · have he2 : (if kv.1 = pk then (pk, inner ++ [(s, vs)]) else kv) = kv :=
          if_neg hk
        rw [he2] at hsv ⊢
        exact Or.inl ⟨kv, hkv, rfl, hsv⟩

/-- The provenance invariant of the all-votes index: every recorded
`(validator, slot, snapshot)` triple is the final-vote entry of some
bank of the collection. -/
def AvFrom (bf : BankForks) (av : AllVotes) : Prop :=
  ∀ e ∈ av, ∀ sv ∈ e.2, ∃ b ∈ bf.banks, (e.1, sv.1, sv.2) ∈ bankLastVoteEntries b

theorem avFrom_insert {bf : BankForks} {av : AllVotes} {pk : Pubkey}
    {s : Slot} {vs : VoteState}
    (hav : AvFrom bf av)
    (hsrc : ∃ b ∈ bf.banks, (pk, s, vs) ∈ bankLastVoteEntries b) :
    AvFrom bf (insertAllVote av pk s vs) := by
  intro e he sv hsv
  rcases insertAllVote_mem e he sv hsv with ⟨e0, he0, hk, hsv0⟩ | ⟨hk, rfl⟩
  · rw [← hk]; exact hav e0 he0 sv hsv0
  · rw [hk]; exact hsrc

theorem avFrom_bankFold {bf : BankForks} {b : Bank} (hb : b ∈ bf.banks) :
    ∀ (l : List (Pubkey × Slot × VoteState)) (av : AllVotes),
      (∀ x ∈ l, x ∈ bankLastVoteEntries b) → AvFrom bf av →
      AvFrom bf (l.foldl (fun av e => insertAllVote av e.1 e.2.1 e.2.2) av) := by
  intro l
  induction l with
  | nil => intro av _ hav; exact hav
  | cons x t ih =>
    intro av hl hav
    refine ih _ (fun y hy => hl y (List.mem_cons_of_mem _ hy)) ?_
    exact avFrom_insert hav ⟨b, hb, hl x (List.mem_cons_self _ _)⟩

theorem avFrom_walkBank {bf : BankForks}
    {ssvc : List (Slot × (Nat × Nat × Nat))} :
    ∀ (fuel : Nat) (b : Bank) (first : Bool) (st : WalkState),
      b ∈ bf.banks → AvFrom bf st.all_votes →
      AvFrom bf (walkBank bf ssvc fuel b first st).all_votes := by
  intro fuel
  induction fuel with
  | zero => intro b first st _ hav; exact hav
  | succ n ih =>
    intro b first st hb hav
    have h1 : AvFrom bf
        ((bankLastVoteEntries b).foldl
          (fun av e => insertAllVote av e.1 e.2.1 e.2.2) st.all_votes) :=
      avFrom_bankFold hb _ _ (fun x hx => hx) hav
    cases hp : b.parentIn bf with
    | none =>
      simp only [walkBank, hp]
      split <;> split <;> simpa using h1
    | some p =>
      have hpmem : p ∈ bf.banks := by
        unfold Bank.parentIn at hp
        cases hps : b.parent_slot with
        | none => rw [hps] at hp; simp at hp
        | some ps =>
          rw [hps] at hp
          simp at hp
          exact (mem_of_findBank hp).1
      simp only [walkBank, hp]
      refine ih p false _ hpmem ?_
      split <;> simpa using h1

theorem avFrom_walkAll (bf : BankForks)
    (ssvc : List (Slot × (Nat × Nat × Nat))) :
    AvFrom bf (walkAll bf ssvc).all_votes := by
  unfold walkAll
  have : ∀ (l : List Slot) (st : WalkState), AvFrom bf st.all_votes →
      AvFrom bf ((l.foldl (fun st fs =>
        match findBank bf fs with
        | none => st
        | some b => walkBank bf ssvc (b.slot + 1) b true st) st)).all_votes := by
    intro l
    induction l with
    | nil => intro st hav; exact hav
    | cons fs t ih =>
      intro st hav
      refine ih _ ?_
      cases hb : findBank bf fs with
      | none => simpa [hb] using hav
      | some b =>
        simp only [hb]
        exact avFrom_walkBank _ b true st (mem_of_findBank hb).1 hav
  exact this _ _ (by intro e he; simp at he)

/-- C6 (amended): every `(validator, slot)` pair recorded in the
all-votes index during the walk is the *final* vote slot of some vote
state encountered on a bank of the collection — earlier history entries
of a vote state are never recorded from that state. -/
theorem C6_amended (bf : BankForks) (ssvc : List (Slot × (Nat × Nat × Nat)))
    (pk : Pubkey) (s : Slot)
    (h : ∃ e ∈ (walkAll bf ssvc).all_votes, e.1 = pk ∧ ∃ sv ∈ e.2, sv.1 = s) :
    ∃ b ∈ bf.banks, ∃ vs, (pk, s, vs) ∈ bankLastVoteEntries b := by
  rcases h with ⟨e, he, hk, sv, hsv, hs⟩
  rcases avFrom_walkAll bf ssvc e he sv hsv with ⟨b, hb, hin⟩
  exact ⟨b, hb, sv.2, by rw [← hk, ← hs]; exact hin⟩

theorem assocFind_insertLastVote_self (m : List (Pubkey × LastVote))
    (pk : Pubkey) (c : LastVote) :
    assocFind pk (insertLastVote m pk c) =
      (match assocFind pk m with
       | none => some c
       | some a => some (if a.slot < c.slot then c else a)) := by
  unfold insertLastVote
  cases h0 : assocFind pk m with
  | none => exact assocFind_append_self h0
  | some a =>
    simp only []
    by_cases hlt : a.slot < c.slot
    · rw [if_pos hlt, if_pos hlt]
      exact assocFind_map_update_self h0
    · rw [if_neg hlt, if_neg hlt]
      exact h0

theorem assocFind_insertLastVote_ne {q pk : Pubkey} (h : q ≠ pk)
    (m : List (Pubkey × LastVote)) (c : LastVote) :
    assocFind q (insertLastVote m pk c) = assocFind q m := by
  unfold insertLastVote
  cases h0 : assocFind pk m with
  | none => exact assocFind_append_ne h
  | some a =>
    simp only []
    by_cases hlt : a.slot < c.slot
    · rw [if_pos hlt]
      exact assocFind_map_update_ne h
    · rw [if_neg hlt]

theorem lastVote_fold_proj (pk : Pubkey) :
    ∀ (l : List (Pubkey × LastVote)) (m : List (Pubkey × LastVote)),
      assocFind pk (l.foldl (fun m pc => insertLastVote m pc.1 pc.2) m) =
        ((l.filter (fun pc => pc.1 = pk)).map Prod.snd).foldl
          (fun acc c =>
            match acc with
            | none => some c
            | some a => some (if a.slot < c.slot then c else a))
          (assocFind pk m) := by
  intro l
  induction l with
  | nil => intro m; simp
  | cons pc t ih =>
    intro m
    rw [List.foldl_cons]
    rw [ih]
    by_cases hk : pc.1 = pk
    · rw [List.filter_cons_of_pos (by simpa using hk), List.map_cons,
        List.foldl_cons]
      subst hk
      rw [assocFind_insertLastVote_self]
    · rw [List.filter_cons_of_neg (by simpa using hk)]
      rw [assocFind_insertLastVote_ne (fun he => hk he.symm)]

theorem lastVotes_proj (bf : BankForks) (pk : Pubkey) :
    assocFind pk (last_votes bf) = keepHighestFirstSeen (candidatesFor bf pk) := by
  unfold last_votes keepHighestFirstSeen candidatesFor
  rw [lastVote_fold_proj pk (allCandidates bf) []]
  rfl

theorem foldChoose_from_some :
    ∀ (l : List LastVote) (a : LastVote),
      ∃ r, l.foldl
          (fun acc c =>
            match acc with
            | none => some c
            | some a => some (if a.slot < c.slot then c else a))
          (some a) = some r ∧
        r ∈ a :: l ∧ (∀ c ∈ a :: l, c.slot ≤ r.slot) ∧
        (a :: l).find? (fun c => c.slot = r.slot) = some r := by
  intro l
  induction l with
  | nil =>
    intro a
    refine ⟨a, rfl, List.mem_cons_self _ _, ?_, ?_⟩
    · intro c hc
      rcases List.mem_cons.mp hc with rfl | hc
      · exact Nat.le_refl _
      · simp at hc
    · simp [List.find?_cons]
  | cons c t ih =>
    intro a
    rw [List.foldl_cons]
    by_cases hlt : a.slot < c.slot
    · simp only [if_pos hlt]
      rcases ih c with ⟨r, hfold, hmem, hle, hfind⟩
      refine ⟨r, hfold, ?_, ?_, ?_⟩
      · rcases List.mem_cons.mp hmem with rfl | hm
        · exact List.mem_cons_of_mem _ (List.mem_cons_self _ _)
        · exact List.mem_cons_of_mem _ (List.mem_cons_of_mem _ hm)
      · intro x hx
        rcases List.mem_cons.mp hx with h | hx2
        · rw [h]
          exact Nat.le_trans (Nat.le_of_lt hlt) (hle c (List.mem_cons_self _ _))
        · exact hle x hx2
      · have hane : ¬ a.slot = r.slot := by
          have h2 : c.slot ≤ r.slot := hle c (List.mem_cons_self _ _)
          omega
        rw [List.find?_cons_of_neg _ (by simpa using hane)]
        exact hfind
    · simp only [if_neg hlt]
      rcases ih a with ⟨r, hfold, hmem, hle, hfind⟩
      refine ⟨r, hfold, ?_, ?_, ?_⟩
      · rcases List.mem_cons.mp hmem with rfl | hm
        · exact List.mem_cons_self _ _
        · exact List.mem_cons_of_mem _ (List.mem_cons_of_mem _ hm)
      · intro x hx
        rcases List.mem_cons.mp hx with h | hx2
        · rw [h]; exact hle a (List.mem_cons_self _ _)
        · rcases List.mem_cons.mp hx2 with h | hx3
          · rw [h]
            exact Nat.le_trans (Nat.le_of_not_lt hlt)
              (hle a (List.mem_cons_self _ _))
          · exact hle x (List.mem_cons_of_mem _ hx3)
      · by_cases ha : a.slot = r.slot
        · have : (a :: t).find? (fun c => c.slot = r.slot) = some a := by
            rw [List.find?_cons_of_pos _ (by simpa using ha)]
          rw [this] at hfind
          have hra : a = r := by injection hfind
          subst hra
          rw [List.find?_cons_of_pos _ (by simpa using ha)]
        · have hcr : ¬ c.slot = r.slot := by
            have h1 : c.slot ≤ a.slot := Nat.le_of_not_lt hlt
            have h2 : a.slot ≤ r.slot := hle a (List.mem_cons_self _ _)
            omega
          rw [List.find?_cons_of_neg _ (by simpa using ha)] at hfind
          rw [List.find?_cons_of_neg _ (by simpa using ha),
            List.find?_cons_of_neg _ (by simpa using hcr)]
          exact hfind

/-- C8: the retained `LastVote` of a validator is a candidate of
maximal slot, and among equal-slot candidates it is the first seen (it
is what `find?` at that slot returns). -/
theorem C8_highest_first_seen (bf : BankForks) (pk : Pubkey) (r : LastVote)
    (h : assocFind pk (last_votes bf) = some r) :
    r ∈ candidatesFor bf pk ∧ (∀ c ∈ candidatesFor bf pk, c.slot ≤ r.slot) ∧
      (candidatesFor bf pk).find? (fun c => c.slot = r.slot) = some r := by
  rw [lastVotes_proj] at h
  unfold keepHighestFirstSeen at h
  cases hc : candidatesFor bf pk with
  | nil => rw [hc] at h; simp at h
  | cons c t =>
    rw [hc] at h
    rw [List.foldl_cons] at h
    rcases foldChoose_from_some t c with ⟨r', hfold, hmem, hle, hfind⟩
    rw [hfold] at h
    have : r' = r := by injection h
    subst this
    exact ⟨hmem, hle, hfind⟩

theorem C8_highest_first_seen_witness :
    assocFind 7 (last_votes cexC3) = some cexC3lv ∧
      cexC3lv ∈ candidatesFor cexC3 7 ∧
      (∀ c ∈ candidatesFor cexC3 7, c.slot ≤ cexC3lv.slot) ∧
      (candidatesFor cexC3 7).find? (fun c => c.slot = cexC3lv.slot) =
        some cexC3lv :=
  ⟨by decide, C8_highest_first_seen cexC3 7 cexC3lv (by decide)⟩

theorem insertSlotStake_post {m m' : List (Slot × (Nat × Nat × Nat))}
    {lv : LastVote} (h : insertSlotStake m lv = some m') :
    ∃ e, assocFind lv.slot m' = some e ∧ e.2.2 = lv.total_stake := by
  unfold insertSlotStake at h
  cases h0 : assocFind lv.slot m with
  | none =>
    simp only [h0] at h
    obtain rfl : m ++ [(lv.slot, (1, lv.stake, lv.total_stake))] = m' := by
      injection h
    exact ⟨(1, lv.stake, lv.total_stake), assocFind_append_self h0, rfl⟩
  | some e =>
    simp only [h0] at h
    by_cases ht : e.2.2 = lv.total_stake
    · rw [if_pos ht] at h
      obtain rfl : m.map (fun kv =>
          if kv.1 = lv.slot then (lv.slot, (e.1 + 1, e.2.1 + lv.stake, e.2.2))
          else kv) = m' := by injection h
      exact ⟨(e.1 + 1, e.2.1 + lv.stake, e.2.2),
        assocFind_map_update_self h0, ht⟩
    · rw [if_neg ht] at h
      exact absurd h (by simp)

theorem insertSlotStake_mono {m m' : List (Slot × (Nat × Nat × Nat))}
    {lv : LastVote} {s : Slot} {e : Nat × Nat × Nat}
    (h : insertSlotStake m lv = some m') (h2 : assocFind s m = some e) :
    ∃ e', assocFind s m' = some e' ∧ e'.2.2 = e.2.2 := by
  unfold insertSlotStake at h
  cases h0 : assocFind lv.slot m with
  | none =>
    simp only [h0] at h
    obtain rfl : m ++ [(lv.slot, (1, lv.stake, lv.total_stake))] = m' := by
      injection h
    by_cases hs : s = lv.slot
    · rw [hs] at h2; rw [h2] at h0; exact absurd h0 (by simp)
    · exact ⟨e, by rw [assocFind_append_ne hs]; exact h2, rfl⟩
  | some e0 =>
    simp only [h0] at h
    by_cases ht : e0.2.2 = lv.total_stake
    · rw [if_pos ht] at h
      obtain rfl : m.map (fun kv =>
          if kv.1 = lv.slot then (lv.slot, (e0.1 + 1, e0.2.1 + lv.stake, e0.2.2))
          else kv) = m' := by injection h
      by_cases hs : s = lv.slot
      · subst hs
        have : e = e0 := by rw [h2] at h0; injection h0
        subst this
        exact ⟨(e.1 + 1, e.2.1 + lv.stake, e.2.2),
          assocFind_map_update_self h0, rfl⟩
      · exact ⟨e, by rw [assocFind_map_update_ne hs]; exact h2, rfl⟩
    · rw [if_neg ht] at h
      exact absurd h (by simp)

theorem slotStake_fold_mono {s : Slot} :
    ∀ (l : List (Pubkey × LastVote)) (m m' : List (Slot × (Nat × Nat × Nat)))
      (e : Nat × Nat × Nat),
      l.foldlM (fun m kv => insertSlotStake m kv.2) m = some m' →
      assocFind s m = some e →
      ∃ e', assocFind s m' = some e' ∧ e'.2.2 = e.2.2 := by
  intro l
  induction l with
  | nil =>
    intro m m' e h h2
    obtain rfl : m = m' := by simpa [List.foldlM] using h
    exact ⟨e, h2, rfl⟩
  | cons kv t ih =>
    intro m m' e h h2
    rw [List.foldlM_cons] at h
    cases h0 : insertSlotStake m kv.2 with
    | none => rw [h0] at h; exact absurd h (by simp)
    | some m1 =>
      rw [h0] at h
      rcases insertSlotStake_mono h0 h2 with ⟨e1, he1, hte⟩
      rcases ih m1 m' e1 h he1 with ⟨e', he', hte'⟩
      exact ⟨e', he', by rw [hte', hte]⟩

theorem slotStake_success_consistent :
    ∀ (l : List (Pubkey × LastVote)) (m m' : List (Slot × (Nat × Nat × Nat))),
      l.foldlM (fun m kv => insertSlotStake m kv.2) m = some m' →
      ∀ kv ∈ l, ∃ e, assocFind kv.2.slot m' = some e ∧
        e.2.2 = kv.2.total_stake := by
  intro l
  induction l with
  | nil => intro m m' _ kv hkv; simp at hkv
  | cons kv0 t ih =>
    intro m m' h kv hkv
    rw [List.foldlM_cons] at h
    cases h0 : insertSlotStake m kv0.2 with
    | none => rw [h0] at h; exact absurd h (by simp)
    | some m1 =>
      rw [h0] at h
      rcases List.mem_cons.mp hkv with rfl | hkv2
      · rcases insertSlotStake_post h0 with ⟨e1, he1, hte⟩
        rcases slotStake_fold_mono t m1 m' e1 h he1 with ⟨e', he', hte'⟩
        exact ⟨e', he', by rw [hte', hte]⟩
      · exact ih m1 m' h kv hkv2

/-- C3 (amended): the computation aborts (the modelled `assert_eq!`)
when two *retained* `LastVote` records with equal last-vote slots carry
different total-stake snapshots; candidates for the same validator that
disagree are not checked (the higher-slot one silently wins, see the
counterexample), and the assertion's diagnostic compares the two stake
totals without naming a validator. -/
theorem C3_amended (bf : BankForks) (cfg : GraphConfig)
    (h : ∃ kv1 ∈ last_votes bf, ∃ kv2 ∈ last_votes bf,
      kv1.2.slot = kv2.2.slot ∧ kv1.2.total_stake ≠ kv2.2.total_stake) :
    graph_forks bf cfg = none := by
  rcases h with ⟨kv1, h1, kv2, h2, hslot, hne⟩
  have hnone : slot_stake_and_vote_count (last_votes bf) = none := by
    cases hss : slot_stake_and_vote_count (last_votes bf) with
    | none => rfl
    | some m =>
      exfalso
      rcases slotStake_success_consistent (last_votes bf) [] m hss kv1 h1 with
        ⟨e1, he1, ht1⟩
      rcases slotStake_success_consistent (last_votes bf) [] m hss kv2 h2 with
        ⟨e2, he2, ht2⟩
      rw [hslot] at he1
      rw [he1] at he2
      have : e1 = e2 := by injection he2
      subst this
      exact hne (by rw [← ht1, ht2])
  unfold graph_forks graphStmts
  rw [hnone]
  rfl

theorem C3_amended_witness :
    (∃ kv1 ∈ last_votes cexSameSlot, ∃ kv2 ∈ last_votes cexSameSlot,
      kv1.2.slot = kv2.2.slot ∧ kv1.2.total_stake ≠ kv2.2.total_stake) ∧
    graph_forks cexSameSlot cfgPlain = none :=
  ⟨by decide, C3_amended cexSameSlot cfgPlain (by decide)⟩

theorem C6_amended_witness :
    (∃ e ∈ (walkAll cexC6 cexC6ssvc).all_votes, e.1 = 7 ∧
      ∃ sv ∈ e.2, sv.1 = 5) ∧
    ∃ b ∈ cexC6.banks, ∃ vs, (7, 5, vs) ∈ bankLastVoteEntries b :=
  ⟨by decide, C6_amended cexC6 cexC6ssvc 7 5 (by decide)⟩

theorem slot_inj {bf : BankForks} (hnd : NodupSlots bf) :
    ∀ a ∈ bf.banks, ∀ b ∈ bf.banks, a.slot = b.slot → a = b := by
  unfold NodupSlots at hnd
  intro a ha b hb heq
  exact List.inj_on_of_nodup_map hnd ha hb heq

theorem findBank_of_mem {bf : BankForks} {b : Bank} (hnd : NodupSlots bf)
    (hb : b ∈ bf.banks) : findBank bf b.slot = some b := by
  cases h : findBank bf b.slot with
  | none =>
    exfalso
    have := List.find?_eq_none.mp h b hb
    simp at this
  | some b2 =>
    have hm := mem_of_findBank h
    rw [slot_inj hnd b2 hm.1 b hb hm.2]

theorem parentIn_mem {bf : BankForks} {b p : Bank}
    (hdec : ParentsDecrease bf) (hb : b ∈ bf.banks)
    (hp : b.parentIn bf = some p) : p ∈ bf.banks ∧ p.slot < b.slot := by
  unfold Bank.parentIn at hp
  cases hps : b.parent_slot with
  | none => rw [hps] at hp; simp at hp
  | some ps =>
    rw [hps] at hp
    simp only [Option.some_bind] at hp
    have hm := mem_of_findBank hp
    refine ⟨hm.1, ?_⟩
    rw [hm.2]
    exact hdec b hb ps hps

theorem parentsAux_fuel {bf : BankForks} (hdec : ParentsDecrease bf) :
    ∀ (n : Nat) (b : Bank), b ∈ bf.banks → b.slot ≤ n →
      ∀ f g, b.slot < f → b.slot < g → parentsAux bf f b = parentsAux bf g b := by
  intro n
  induction n with
  | zero =>
    intro b hb hbn f g hf hg
    obtain ⟨f2, rfl⟩ : ∃ f2, f = f2 + 1 := ⟨f - 1, by omega⟩
    obtain ⟨g2, rfl⟩ : ∃ g2, g = g2 + 1 := ⟨g - 1, by omega⟩
    simp only [parentsAux]
    cases hp : b.parentIn bf with
    | none => rfl
    | some p =>
      have := (parentIn_mem hdec hb hp).2
      omega
  | succ n ih =>
    intro b hb hbn f g hf hg
    obtain ⟨f2, rfl⟩ : ∃ f2, f = f2 + 1 := ⟨f - 1, by omega⟩
    obtain ⟨g2, rfl⟩ : ∃ g2, g = g2 + 1 := ⟨g - 1, by omega⟩
    simp only [parentsAux]
    cases hp : b.parentIn bf with
    | none => rfl
    | some p =>
      simp only []
      have hpm := parentIn_mem hdec hb hp
      rw [ih p hpm.1 (by omega) f2 g2 (by omega) (by omega)]

theorem parentsIn_none {bf : BankForks} {b : Bank}
    (hp : b.parentIn bf = none) : b.parentsIn bf = [] := by
  unfold Bank.parentsIn
  simp only [parentsAux, hp]

theorem parentsIn_some {bf : BankForks} {b p : Bank}
    (hdec : ParentsDecrease bf) (hb : b ∈ bf.banks)
    (hp : b.parentIn bf = some p) : b.parentsIn bf = p :: p.parentsIn bf := by
  have hpm := parentIn_mem hdec hb hp
  unfold Bank.parentsIn
  conv =>
    lhs
    rw [parentsAux, hp]
  simp only []
  rw [parentsAux_fuel hdec p.slot p hpm.1 (Nat.le_refl _) b.slot (p.slot + 1)
    (by omega) (by omega)]

theorem parents_trans {bf : BankForks} (hdec : ParentsDecrease bf) :
    ∀ (n : Nat) (b : Bank), b ∈ bf.banks → b.slot ≤ n →
      ∀ p ∈ b.parentsIn bf,
        p ∈ bf.banks ∧ p.slot < b.slot ∧
          ∀ q ∈ p.parentsIn bf, q ∈ b.parentsIn bf := by
  intro n
  induction n with
  | zero =>
    intro b hb hbn p hp
    cases hpar : b.parentIn bf with
    | none => rw [parentsIn_none hpar] at hp; simp at hp
    | some p0 =>
      have := (parentIn_mem hdec hb hpar).2
      omega
  | succ n ih =>
    intro b hb hbn p hp
    cases hpar : b.parentIn bf with
    | none => rw [parentsIn_none hpar] at hp; simp at hp
    | some p0 =>
      have hp0 := parentIn_mem hdec hb hpar
      rw [parentsIn_some hdec hb hpar] at hp
      rcases List.mem_cons.mp hp with rfl | hp2
      · refine ⟨hp0.1, hp0.2, ?_⟩
        intro q hq
        rw [parentsIn_some hdec hb hpar]
        exact List.mem_cons_of_mem _ hq
      · have hrec := ih p0 hp0.1 (by omega) p hp2
        refine ⟨hrec.1, by omega, ?_⟩
        intro q hq
        rw [parentsIn_some hdec hb hpar]
        exact List.mem_cons_of_mem _ (hrec.2.2 q hq)

theorem mem_fork_slots {bf : BankForks} {s : Nat} :
    s ∈ fork_slots bf ↔
      s ∈ bf.banks.map Bank.slot ∧
        ¬ s ∈ bf.banks.flatMap (fun b => (b.parentsIn bf).map Bank.slot) := by
  unfold fork_slots
  rw [List.mem_filter]
  simp

theorem maxSlot_le {bf : BankForks} : ∀ b ∈ bf.banks, b.slot ≤ maxSlot bf := by
  unfold maxSlot
  have : ∀ (l : List Nat), ∀ x ∈ l, x ≤ l.foldr max 0 := by
    intro l
    induction l with
    | nil => intro x hx; simp at hx
    | cons a t ih =>
      intro x hx
      rcases List.mem_cons.mp hx with rfl | hx2
      · exact Nat.le_max_left _ _
      · exact Nat.le_trans (ih x hx2) (Nat.le_max_right _ _)
  intro b hb
  exact this _ _ (List.mem_map_of_mem _ hb)

theorem reach_tip {bf : BankForks} (hdec : ParentsDecrease bf)
    (hnd : NodupSlots bf) :
    ∀ (n : Nat) (c : Bank), c ∈ bf.banks → maxSlot bf ≤ c.slot + n →
      c.slot ∉ fork_slots bf →
      ∃ t ∈ fork_slots bf, ∃ tb, findBank bf t = some tb ∧
        c.slot ∈ ancestorSlots bf tb := by
  intro n
  induction n with
  | zero =>
    intro c hc hcn hnt
    exfalso
    have hkeys : c.slot ∈ bf.banks.map Bank.slot := List.mem_map_of_mem _ hc
    have hanc : c.slot ∈
        bf.banks.flatMap (fun b => (b.parentsIn bf).map Bank.slot) := by
      by_contra hno
      exact hnt (mem_fork_slots.mpr ⟨hkeys, hno⟩)
    rcases List.mem_flatMap.mp hanc with ⟨d, hd, hin⟩
    rcases List.mem_map.mp hin with ⟨cb, hcb, hcs⟩
    have := (parents_trans hdec d.slot d hd (Nat.le_refl _) cb hcb).2.1
    have hdmax := maxSlot_le d hd
    omega
  | succ n ih =>
    intro c hc hcn hnt
    have hkeys : c.slot ∈ bf.banks.map Bank.slot := List.mem_map_of_mem _ hc
    have hanc : c.slot ∈
        bf.banks.flatMap (fun b => (b.parentsIn bf).map Bank.slot) := by
      by_contra hno
      exact hnt (mem_fork_slots.mpr ⟨hkeys, hno⟩)
    rcases List.mem_flatMap.mp hanc with ⟨d, hd, hin⟩
    rcases List.mem_map.mp hin with ⟨cb, hcb, hcs⟩
    have hcbm := parents_trans hdec d.slot d hd (Nat.le_refl _) cb hcb
    by_cases hdt : d.slot ∈ fork_slots bf
    · refine ⟨d.slot, hdt, d, findBank_of_mem hnd hd, ?_⟩
      unfold ancestorSlots
      rw [← hcs]
      exact List.mem_map_of_mem _ hcb
    · have hcd : c.slot < d.slot := by
        have := hcbm.2.1
        omega
      rcases ih d hd (by omega) hdt with ⟨t, ht, tb, htb, hdanc⟩
      refine ⟨t, ht, tb, htb, ?_⟩
      unfold ancestorSlots at hdanc ⊢
      rcases List.mem_map.mp hdanc with ⟨db, hdb, hdbs⟩
      have htbm := mem_of_findBank htb
      have hdbm := parents_trans hdec tb.slot tb htbm.1 (Nat.le_refl _) db hdb
      have hdeq : db = d := slot_inj hnd db hdbm.1 d hd hdbs
      subst hdeq
      have hsub := hdbm.2.2 cb hcb
      rw [← hcs]
      exact List.mem_map_of_mem _ hsub

/-- C4: over an acyclic, slot-keyed, parent-linked collection, no
resolved tip is an ancestor of another resolved tip, and every bank that
is not a tip is an ancestor of at least one tip. -/
theorem C4_tip_resolution (bf : BankForks) (hdec : ParentsDecrease bf)
    (hnd : NodupSlots bf) :
    (∀ t1 ∈ fork_slots bf, ∀ t2 ∈ fork_slots bf, ∀ b2,
      findBank bf t2 = some b2 → t1 ∉ ancestorSlots bf b2) ∧
    (∀ b ∈ bf.banks, b.slot ∉ fork_slots bf →
      ∃ t ∈ fork_slots bf, ∃ tb, findBank bf t = some tb ∧
        b.slot ∈ ancestorSlots bf tb) := by
  constructor
  · intro t1 ht1 t2 ht2 b2 hb2 hanc
    have hb2m := mem_of_findBank hb2
    have : t1 ∈ bf.banks.flatMap (fun b => (b.parentsIn bf).map Bank.slot) :=
      List.mem_flatMap.mpr ⟨b2, hb2m.1, hanc⟩
    exact (mem_fork_slots.mp ht1).2 this
  · intro b hb hnt
    exact reach_tip hdec hnd (maxSlot bf) b hb (by omega) hnt

theorem C4_tip_resolution_witness :
    ParentsDecrease cexChain ∧ NodupSlots cexChain ∧
    ((∀ t1 ∈ fork_slots cexChain, ∀ t2 ∈ fork_slots cexChain, ∀ b2,
      findBank cexChain t2 = some b2 → t1 ∉ ancestorSlots cexChain b2) ∧
    (∀ b ∈ cexChain.banks, b.slot ∉ fork_slots cexChain →
      ∃ t ∈ fork_slots cexChain, ∃ tb, findBank cexChain t = some tb ∧
        b.slot ∈ ancestorSlots cexChain tb)) :=
  ⟨by decide, by decide, C4_tip_resolution cexChain (by decide) (by decide)⟩

theorem walkBank_nodes {bf : BankForks}
    {ssvc : List (Slot × (Nat × Nat × Nat))} :
    ∀ (fuel : Nat) (b : Bank) (first : Bool) (st : WalkState),
      st.stmts.filterMap nodeSlot = st.styled_slots → st.styled_slots.Nodup →
      (walkBank bf ssvc fuel b first st).stmts.filterMap nodeSlot =
        (walkBank bf ssvc fuel b first st).styled_slots ∧
      (walkBank bf ssvc fuel b first st).styled_slots.Nodup := by
  intro fuel
  induction fuel with
  | zero => intro b first st h1 h2; exact ⟨h1, h2⟩
  | succ n ih =>
    intro b first st h1 h2
    cases hp : b.parentIn bf with
    | none =>
      simp only [walkBank, hp]
      by_cases hm : b.slot ∈ st.styled_slots
      · rw [if_pos hm]
        by_cases hz : b.slot > 0
        · rw [if_pos hz]
          exact ⟨by simp [List.filterMap_append, h1, nodeSlot], h2⟩
        · rw [if_neg hz]
          exact ⟨h1, h2⟩
      · rw [if_neg hm]
        by_cases hz : b.slot > 0
        · rw [if_pos hz]
          refine ⟨by simp [List.filterMap_append, h1, nodeSlot], ?_⟩
          simp [List.nodup_append, h2, hm]
        · rw [if_neg hz]
          refine ⟨by simp [List.filterMap_append, h1, nodeSlot], ?_⟩
          simp [List.nodup_append, h2, hm]
    | some p =>
      simp only [walkBank, hp]
      by_cases hm : b.slot ∈ st.styled_slots
      · rw [if_pos hm]
        exact ih p false _ (by simp [List.filterMap_append, h1, nodeSlot]) h2
      · rw [if_neg hm]
        refine ih p false _ (by simp [List.filterMap_append, h1, nodeSlot]) ?_
        simp [List.nodup_append, h2, hm]

theorem walkBank_styled_mono {bf : BankForks}
    {ssvc : List (Slot × (Nat × Nat × Nat))} :
    ∀ (fuel : Nat) (b : Bank) (first : Bool) (st : WalkState) (s : Nat),
      s ∈ st.styled_slots →
      s ∈ (walkBank bf ssvc fuel b first st).styled_slots := by
  intro fuel
  induction fuel with
  | zero => intro b first st s hs; exact hs
  | succ n ih =>
    intro b first st s hs
    cases hp : b.parentIn bf with
    | none =>
      simp only [walkBank, hp]
      by_cases hm : b.slot ∈ st.styled_slots
      · rw [if_pos hm]
        split <;> exact hs
      · rw [if_neg hm]
        split <;> exact List.mem_append_left _ hs
    | some p =>
      simp only [walkBank, hp]
      refine ih p false _ s ?_
      by_cases hm : b.slot ∈ st.styled_slots
      · rw [if_pos hm]
        exact hs
      · rw [if_neg hm]
        exact List.mem_append_left _ hs

theorem walkBank_covers {bf : BankForks}
    {ssvc : List (Slot × (Nat × Nat × Nat))} (hdec : ParentsDecrease bf) :
    ∀ (n : Nat) (b : Bank), b ∈ bf.banks → b.slot ≤ n →
      ∀ (f : Nat), b.slot < f → ∀ (first : Bool) (st : WalkState),
        b.slot ∈ (walkBank bf ssvc f b first st).styled_slots ∧
        ∀ s ∈ ancestorSlots bf b,
          s ∈ (walkBank bf ssvc f b first st).styled_slots := by
  intro n
  induction n with
  | zero =>
    intro b hb hbn f hf first st
    obtain ⟨f2, rfl⟩ : ∃ f2, f = f2 + 1 := ⟨f - 1, by omega⟩
    cases hp : b.parentIn bf with
    | none =>
      constructor
      · simp only [walkBank, hp]
        by_cases hm : b.slot ∈ st.styled_slots
        · rw [if_pos hm]
          split <;> exact hm
        · rw [if_neg hm]
          split <;> simp
      · intro s hs
        rw [ancestorSlots, parentsIn_none hp] at hs
        simp at hs
    | some p =>
      exfalso
      have := (parentIn_mem hdec hb hp).2
      omega
  | succ n ih =>
    intro b hb hbn f hf first st
    obtain ⟨f2, rfl⟩ : ∃ f2, f = f2 + 1 := ⟨f - 1, by omega⟩
    cases hp : b.parentIn bf with
    | none =>
      constructor
      · simp only [walkBank, hp]
        by_cases hm : b.slot ∈ st.styled_slots
        · rw [if_pos hm]
          split <;> exact hm
        · rw [if_neg hm]
          split <;> simp
      · intro s hs
        rw [ancestorSlots, parentsIn_none hp] at hs
        simp at hs
    | some p =>
      have hpm := parentIn_mem hdec hb hp
      have hrec := ih p hpm.1 (by omega) f2 (by omega) false
      constructor
      · simp only [walkBank, hp]
        refine walkBank_styled_mono f2 p false _ b.slot ?_
        by_cases hm : b.slot ∈ st.styled_slots
        · rw [if_pos hm]
          exact hm
        · rw [if_neg hm]
          simp
      · intro s hs
        rw [ancestorSlots, parentsIn_some hdec hb hp] at hs
        simp only [List.map_cons, List.mem_cons] at hs
        simp only [walkBank, hp]
        rcases hs with rfl | hs2
        · exact (hrec _).1
        · exact (hrec _).2 s hs2

theorem walkAll_step_mono {bf : BankForks}
    {ssvc : List (Slot × (Nat × Nat × Nat))} :
    ∀ (l : List Nat) (st : WalkState) (s : Nat), s ∈ st.styled_slots →
      s ∈ ((l.foldl (fun st fs =>
        match findBank bf fs with
        | none => st
        | some b => walkBank bf ssvc (b.slot + 1) b true st) st)).styled_slots := by
  intro l
  induction l with
  | nil => intro st s hs; exact hs
  | cons fs t ih =>
    intro st s hs
    refine ih _ s ?_
    cases hb : findBank bf fs with
    | none => simpa [hb] using hs
    | some b =>
      simp only [hb]
      exact walkBank_styled_mono _ b true st s hs

theorem walkAll_covers {bf : BankForks}
    {ssvc : List (Slot × (Nat × Nat × Nat))} (hdec : ParentsDecrease bf) :
    ∀ t ∈ fork_slots bf, ∀ tb, findBank bf t = some tb →
      tb.slot ∈ (walkAll bf ssvc).styled_slots ∧
      ∀ s ∈ ancestorSlots bf tb, s ∈ (walkAll bf ssvc).styled_slots := by
  intro t ht tb htb
  have htbm := mem_of_findBank htb
  unfold walkAll
  rcases List.append_of_mem ht with ⟨l1, l2, hl⟩
  rw [hl, List.foldl_append, List.foldl_cons]
  simp only [htb]
  have hcov := @walkBank_covers bf ssvc hdec tb.slot tb htbm.1 (Nat.le_refl _)
    (tb.slot + 1) (by omega) true
    (l1.foldl (fun st fs =>
      match findBank bf fs with
      | none => st
      | some b => walkBank bf ssvc (b.slot + 1) b true st) ⟨[], [], []⟩)
  constructor
  · exact walkAll_step_mono l2 _ tb.slot (hcov).1
  · intro s hs
    exact walkAll_step_mono l2 _ s ((hcov).2 s hs)

/-- C7: the bank-node statements emitted by the chain walk carry exactly
the styled slots, each slot at most once (a node is emitted only on the
first visit), and every slot of every tip's chain — shared ancestor
sub-chains included — is styled, hence rendered exactly once. -/
theorem C7_node_dedup (bf : BankForks)
    (ssvc : List (Slot × (Nat × Nat × Nat))) (hdec : ParentsDecrease bf) :
    (walkAll bf ssvc).stmts.filterMap nodeSlot =
      (walkAll bf ssvc).styled_slots ∧
    (walkAll bf ssvc).styled_slots.Nodup ∧
    ∀ t ∈ fork_slots bf, ∀ tb, findBank bf t = some tb →
      tb.slot ∈ (walkAll bf ssvc).styled_slots ∧
      ∀ s ∈ ancestorSlots bf tb, s ∈ (walkAll bf ssvc).styled_slots := by
  have hnodes : ∀ (l : List Nat) (st : WalkState),
      st.stmts.filterMap nodeSlot = st.styled_slots → st.styled_slots.Nodup →
      ((l.foldl (fun st fs =>
        match findBank bf fs with
        | none => st
        | some b => walkBank bf ssvc (b.slot + 1) b true st) st)).stmts.filterMap
          nodeSlot =
        ((l.foldl (fun st fs =>
        match findBank bf fs with
        | none => st
        | some b => walkBank bf ssvc (b.slot + 1) b true st) st)).styled_slots ∧
      ((l.foldl (fun st fs =>
        match findBank bf fs with
        | none => st
        | some b => walkBank bf ssvc (b.slot + 1) b true st) st)).styled_slots.Nodup := by
    intro l
    induction l with
    | nil => intro st h1 h2; exact ⟨h1, h2⟩
    | cons fs t ih =>
      intro st h1 h2
      rw [List.foldl_cons]
      cases hb : findBank bf fs with
      | none => simp only [hb]; exact ih st h1 h2
      | some b =>
        simp only [hb]
        have hw := @walkBank_nodes bf ssvc (b.slot + 1) b true st h1 h2
        exact ih _ hw.1 hw.2
  have h0 := hnodes (fork_slots bf) ⟨[], [], []⟩ (by simp) (by simp)
  exact ⟨h0.1, h0.2, walkAll_covers hdec⟩

theorem C7_node_dedup_witness :
    ParentsDecrease cexChain ∧
    ((walkAll cexChain []).stmts.filterMap nodeSlot =
      (walkAll cexChain []).styled_slots ∧
    (walkAll cexChain []).styled_slots.Nodup ∧
    ∀ t ∈ fork_slots cexChain, ∀ tb, findBank cexChain t = some tb →
      tb.slot ∈ (walkAll cexChain []).styled_slots ∧
      ∀ s ∈ ancestorSlots cexChain tb,
        s ∈ (walkAll cexChain []).styled_slots) :=
  ⟨by decide, C7_node_dedup cexChain [] (by decide)⟩

theorem strafeStep_stmts (cfg : GraphConfig) (styled : List Slot)
    (st : StrafeState) (kv : Pubkey × LastVote) :
    (strafeStep cfg styled st kv).stmts =
      if cfg.vote_account_mode.is_enabled then
        st.stmts ++
          [Stmt.lastVoteNode kv.1 kv.2.stake (kv.2.vote_state.root_slot.getD 0)
            (lastVoteHistoryText cfg.vote_account_mode kv.2.vote_state),
           Stmt.lastVoteEdge kv.1
             (if kv.2.slot ∈ styled then some kv.2.slot else none)]
      else st.stmts := by
  unfold strafeStep
  by_cases hp : kv.2.slot ∈ styled <;>
    cases he : cfg.vote_account_mode.is_enabled <;> simp [hp, he]

theorem strafeStep_absent_votes (cfg : GraphConfig) (styled : List Slot)
    (st : StrafeState) (kv : Pubkey × LastVote) :
    (strafeStep cfg styled st kv).absent_votes =
      if kv.2.slot ∈ styled then st.absent_votes else st.absent_votes + 1 := by
  unfold strafeStep
  by_cases hp : kv.2.slot ∈ styled <;>
    cases he : cfg.vote_account_mode.is_enabled <;> simp [hp, he]

theorem strafeStep_lowest (cfg : GraphConfig) (styled : List Slot)
    (st : StrafeState) (kv : Pubkey × LastVote) :
    (strafeStep cfg styled st kv).lowest_last_vote_slot =
      (if kv.2.slot ∉ styled ∧ kv.2.slot < st.lowest_last_vote_slot then
        kv.2.slot else st.lowest_last_vote_slot) ∧
    (strafeStep cfg styled st kv).lowest_total_stake =
      (if kv.2.slot ∉ styled ∧ kv.2.slot < st.lowest_last_vote_slot then
        kv.2.total_stake else st.lowest_total_stake) := by
  unfold strafeStep
  by_cases hp : kv.2.slot ∈ styled <;>
    by_cases hlt : kv.2.slot < st.lowest_last_vote_slot <;>
    cases he : cfg.vote_account_mode.is_enabled <;>
    simp [hp, hlt, he]

theorem strafe_stmts_shape (cfg : GraphConfig) (styled : List Slot) :
    ∀ (l : List (Pubkey × LastVote)) (st : StrafeState),
      (∀ x ∈ st.stmts, strafish x = true) →
      ∀ x ∈ (l.foldl (strafeStep cfg styled) st).stmts, strafish x = true := by
  intro l
  induction l with
  | nil => intro st h x hx; exact h x hx
  | cons kv t ih =>
    intro st h x hx
    refine ih _ ?_ x hx
    intro y hy
    rw [strafeStep_stmts] at hy
    cases he : cfg.vote_account_mode.is_enabled
    · rw [he] at hy
      simp only [if_neg Bool.false_ne_true] at hy
      exact h y hy
    · rw [he, if_pos rfl] at hy
      rcases List.mem_append.mp hy with h2 | h2
      · exact h y h2
      · rcases List.mem_cons.mp h2 with rfl | h3
        · rfl
        · rcases List.mem_cons.mp h3 with rfl | h4
          · rfl
          · simp at h4

theorem walkBank_stmts_shape {bf : BankForks}
    {ssvc : List (Slot × (Nat × Nat × Nat))} :
    ∀ (fuel : Nat) (b : Bank) (first : Bool) (st : WalkState),
      (∀ x ∈ st.stmts, walkish x = true) →
      ∀ x ∈ (walkBank bf ssvc fuel b first st).stmts, walkish x = true := by
  intro fuel
  induction fuel with
  | zero => intro b first st h x hx; exact h x hx
  | succ n ih =>
    intro b first st h x hx
    have hstep : ∀ (tx : Option Nat), ∀ y ∈ (st.stmts ++
        [Stmt.node b.slot b.epoch b.collector_id tx
          (assocFind b.slot ssvc) first]), walkish y = true := by
      intro tx y hy
      rcases List.mem_append.mp hy with h2 | h2
      · exact h y h2
      · simp at h2; subst h2; rfl
    cases hp : b.parentIn bf with
    | none =>
      simp only [walkBank, hp] at hx
      by_cases hm : b.slot ∈ st.styled_slots
      · rw [if_pos hm] at hx
        by_cases hz : b.slot > 0
        · rw [if_pos hz] at hx
          simp only at hx
          rcases List.mem_append.mp hx with h2 | h2
          · exact h x h2
          · simp at h2; subst h2; rfl
        · rw [if_neg hz] at hx
          exact h x hx
      · rw [if_neg hm] at hx
        by_cases hz : b.slot > 0
        · rw [if_pos hz] at hx
          simp only at hx
          rcases List.mem_append.mp hx with h2 | h2
          · exact hstep _ x h2
          · simp at h2; subst h2; rfl
        · rw [if_neg hz] at hx
          exact hstep _ x hx
    | some p =>
      simp only [walkBank, hp] at hx
      by_cases hm : b.slot ∈ st.styled_slots
      · rw [if_pos hm] at hx
        refine ih p false _ ?_ x hx
        intro y hy
        simp only at hy
        rcases List.mem_append.mp hy with h2 | h2
        · exact h y h2
        · simp at h2; subst h2; rfl
      · rw [if_neg hm] at hx
        refine ih p false _ ?_ x hx
        intro y hy
        simp only at hy
        rcases List.mem_append.mp hy with h2 | h2
        · exact hstep _ y h2
        · simp at h2; subst h2; rfl

theorem walkAll_stmts_shape {bf : BankForks}
    {ssvc : List (Slot × (Nat × Nat × Nat))} :
    ∀ x ∈ (walkAll bf ssvc).stmts, walkish x = true := by
  unfold walkAll
  have : ∀ (l : List Nat) (st : WalkState),
      (∀ x ∈ st.stmts, walkish x = true) →
      ∀ x ∈ ((l.foldl (fun st fs =>
        match findBank bf fs with
        | none => st
        | some b => walkBank bf ssvc (b.slot + 1) b true st) st)).stmts,
        walkish x = true := by
    intro l
    induction l with
    | nil => intro st h x hx; exact h x hx
    | cons fs t ih =>
      intro st h x hx
      rw [List.foldl_cons] at hx
      cases hb : findBank bf fs with
      | none => rw [hb] at hx; exact ih st h x hx
      | some b =>
        rw [hb] at hx
        exact ih _ (walkBank_stmts_shape (b.slot + 1) b true st h) x hx
  intro x hx
  exact this _ _ (by intro y hy; simp at hy) x hx

theorem allVotesStmts_shape (styled : List Slot) (av : AllVotes) :
    ∀ x ∈ allVotesStmts styled av, allvotish x = true := by
  intro x hx
  unfold allVotesStmts at hx
  rcases List.mem_flatMap.mp hx with ⟨e, _, hin⟩
  rcases List.mem_flatMap.mp hin with ⟨sv, _, hin2⟩
  rcases List.mem_cons.mp hin2 with rfl | h2
  · rfl
  · rcases List.mem_cons.mp h2 with rfl | h3
    · rfl
    · simp at h3

theorem strafe_fold_absent_votes (cfg : GraphConfig) (styled : List Slot) :
    ∀ (l : List (Pubkey × LastVote)) (st : StrafeState),
      (l.foldl (strafeStep cfg styled) st).absent_votes =
        st.absent_votes + l.countP (fun kv => !(decide (kv.2.slot ∈ styled))) := by
  intro l
  induction l with
  | nil => intro st; simp
  | cons kv t ih =>
    intro st
    rw [List.foldl_cons, ih, List.countP_cons]
    rw [strafeStep_absent_votes]
    by_cases hp : kv.2.slot ∈ styled <;> simp [hp] <;> omega

theorem strafe_fold_lowest (cfg : GraphConfig) (styled : List Slot) :
    ∀ (l : List (Pubkey × LastVote)) (st : StrafeState),
      ((l.foldl (strafeStep cfg styled) st).lowest_last_vote_slot,
        (l.foldl (strafeStep cfg styled) st).lowest_total_stake) =
      lowestPair styled l (st.lowest_last_vote_slot, st.lowest_total_stake) := by
  intro l
  induction l with
  | nil => intro st; rfl
  | cons kv t ih =>
    intro st
    rw [List.foldl_cons, ih, lowestPair]
    have hl := strafeStep_lowest cfg styled st kv
    rw [hl.1, hl.2]
    by_cases hc : kv.2.slot ∉ styled ∧ kv.2.slot < st.lowest_last_vote_slot
    · rw [if_pos hc, if_pos hc, if_pos hc]
    · rw [if_neg hc, if_neg hc, if_neg hc]

theorem lowestPair_le (styled : List Slot) :
    ∀ (l : List (Pubkey × LastVote)) (p : Nat × Nat),
      (lowestPair styled l p).1 ≤ p.1 ∧
      ∀ kv ∈ l, kv.2.slot ∉ styled → (lowestPair styled l p).1 ≤ kv.2.slot := by
  intro l
  induction l with
  | nil => intro p; exact ⟨Nat.le_refl _, by intro kv hkv; simp at hkv⟩
  | cons kv t ih =>
    intro p
    rw [lowestPair]
    by_cases hc : kv.2.slot ∉ styled ∧ kv.2.slot < p.1
    · rw [if_pos hc]
      rcases ih (kv.2.slot, kv.2.total_stake) with ⟨h1, h2⟩
      refine ⟨by simp at h1; omega, ?_⟩
      intro kv2 hkv2 habs
      rcases List.mem_cons.mp hkv2 with rfl | hm
      · simpa using h1
      · exact h2 kv2 hm habs
    · rw [if_neg hc]
      rcases ih p with ⟨h1, h2⟩
      refine ⟨h1, ?_⟩
      intro kv2 hkv2 habs
      rcases List.mem_cons.mp hkv2 with rfl | hm
      · have : p.1 ≤ kv2.2.slot := by
          by_contra hlt
          exact hc ⟨habs, by omega⟩
        omega
      · exact h2 kv2 hm habs

theorem lowestPair_cases (styled : List Slot) :
    ∀ (l : List (Pubkey × LastVote)) (p : Nat × Nat),
      lowestPair styled l p = p ∨
      ∃ kv ∈ l, kv.2.slot ∉ styled ∧
        lowestPair styled l p = (kv.2.slot, kv.2.total_stake) := by
  intro l
  induction l with
  | nil => intro p; exact Or.inl rfl
  | cons kv t ih =>
    intro p
    rw [lowestPair]
    by_cases hc : kv.2.slot ∉ styled ∧ kv.2.slot < p.1
    · rw [if_pos hc]
      rcases ih (kv.2.slot, kv.2.total_stake) with h | ⟨kv2, hm, habs, heq⟩
      · exact Or.inr ⟨kv, List.mem_cons_self _ _, hc.1, h⟩
      · exact Or.inr ⟨kv2, List.mem_cons_of_mem _ hm, habs, heq⟩
    · rw [if_neg hc]
      rcases ih p with h | ⟨kv2, hm, habs, heq⟩
      · exact Or.inl h
      · exact Or.inr ⟨kv2, List.mem_cons_of_mem _ hm, habs, heq⟩

theorem strafeAll_stmts_shape (cfg : GraphConfig) (styled : List Slot)
    (av : AllVotes) (lvs : List (Pubkey × LastVote)) :
    ∀ x ∈ (strafeAll cfg styled av lvs).stmts, strafish x = true := by
  unfold strafeAll
  exact strafe_stmts_shape cfg styled lvs _ (by intro x hx; simp at hx)

theorem strafeAll_absent_votes (cfg : GraphConfig) (styled : List Slot)
    (av : AllVotes) (lvs : List (Pubkey × LastVote)) :
    (strafeAll cfg styled av lvs).absent_votes =
      lvs.countP (fun kv => !(decide (kv.2.slot ∈ styled))) := by
  unfold strafeAll
  rw [strafe_fold_absent_votes]
  simp

theorem strafeAll_lowest (cfg : GraphConfig) (styled : List Slot)
    (av : AllVotes) (lvs : List (Pubkey × LastVote)) :
    ((strafeAll cfg styled av lvs).lowest_last_vote_slot,
      (strafeAll cfg styled av lvs).lowest_total_stake) =
      lowestPair styled lvs (2 ^ 64 - 1, 0) := by
  unfold strafeAll
  rw [strafe_fold_lowest]

theorem absentSummary_mem_iff (bf : BankForks) (cfg : GraphConfig)
    (ssvc : List (Slot × (Nat × Nat × Nat))) (stmts : List Stmt)
    (hss : slot_stake_and_vote_count (last_votes bf) = some ssvc)
    (hst : graphStmts bf cfg = some stmts) :
    ∀ v s t2, Stmt.absentSummary v s t2 ∈ stmts ↔
      (0 < (strafeAll cfg (walkAll bf ssvc).styled_slots
          (walkAll bf ssvc).all_votes (last_votes bf)).absent_votes ∧
        v = (strafeAll cfg (walkAll bf ssvc).styled_slots
          (walkAll bf ssvc).all_votes (last_votes bf)).absent_votes ∧
        s = (strafeAll cfg (walkAll bf ssvc).styled_slots
          (walkAll bf ssvc).all_votes (last_votes bf)).absent_stake ∧
        t2 = (strafeAll cfg (walkAll bf ssvc).styled_slots
          (walkAll bf ssvc).all_votes (last_votes bf)).lowest_total_stake) := by
  intro v s t2
  simp only [graphStmts, hss] at hst
  have hbig := Option.some.inj hst
  subst hbig
  constructor
  · intro hmem
    simp only [List.mem_append] at hmem
    rcases hmem with ((((((h | h) | h) | h) | h) | h) | h)
    · simp at h
    · exfalso
      have := walkAll_stmts_shape _ h
      simp [walkish] at this
    · simp at h
    · exfalso
      have := strafeAll_stmts_shape cfg _ _ _ _ h
      simp [strafish] at this
    · by_cases hz : 0 <
          (strafeAll cfg (walkAll bf ssvc).styled_slots
            (walkAll bf ssvc).all_votes (last_votes bf)).absent_votes
      · rw [if_pos hz] at h
        simp only [List.mem_singleton] at h
        injection h with hv hs2 ht2
        subst hv
        subst hs2
        subst ht2
        exact ⟨hz, rfl, rfl, rfl⟩
      · rw [if_neg hz] at h
        simp at h
    · exfalso
      by_cases hc : cfg.include_all_votes = true
      · rw [if_pos hc] at h
        have := allVotesStmts_shape _ _ _ h
        simp [allvotish] at this
      · rw [if_neg hc] at h
        simp at h
    · simp at h
  · rintro ⟨hz, rfl, rfl, rfl⟩
    simp only [List.mem_append]
    refine Or.inl (Or.inl (Or.inr ?_))
    rw [if_pos hz]
    simp

/-- C9: the absent-vote summary statement appears in the output exactly
when some validator's last-vote slot is not among the styled (rendered)
slots, and its total-stake denominator is the snapshot carried by an
absent vote of numerically lowest slot. -/
theorem C9_absent_summary (bf : BankForks) (cfg : GraphConfig)
    (ssvc : List (Slot × (Nat × Nat × Nat))) (stmts : List Stmt)
    (hss : slot_stake_and_vote_count (last_votes bf) = some ssvc)
    (hst : graphStmts bf cfg = some stmts)
    (hbound : ∀ kv ∈ last_votes bf, kv.2.slot < 2 ^ 64 - 1) :
    ((∃ v s t2, Stmt.absentSummary v s t2 ∈ stmts) ↔
      ∃ kv ∈ last_votes bf, kv.2.slot ∉ (walkAll bf ssvc).styled_slots) ∧
    ∀ v s t2, Stmt.absentSummary v s t2 ∈ stmts →
      ∃ kv ∈ last_votes bf,
        kv.2.slot ∉ (walkAll bf ssvc).styled_slots ∧
        (∀ kv2 ∈ last_votes bf, kv2.2.slot ∉ (walkAll bf ssvc).styled_slots →
          kv.2.slot ≤ kv2.2.slot) ∧
        t2 = kv.2.total_stake := by
  have hiff := absentSummary_mem_iff bf cfg ssvc stmts hss hst
  have hcount : (strafeAll cfg (walkAll bf ssvc).styled_slots
      (walkAll bf ssvc).all_votes (last_votes bf)).absent_votes =
      (last_votes bf).countP
        (fun kv => !(decide (kv.2.slot ∈ (walkAll bf ssvc).styled_slots))) :=
    strafeAll_absent_votes _ _ _ _
  have hpos : 0 < (strafeAll cfg (walkAll bf ssvc).styled_slots
      (walkAll bf ssvc).all_votes (last_votes bf)).absent_votes ↔
      ∃ kv ∈ last_votes bf, kv.2.slot ∉ (walkAll bf ssvc).styled_slots := by
    rw [hcount, List.countP_pos_iff]
    constructor
    · rintro ⟨kv, hkv, hp⟩
      refine ⟨kv, hkv, ?_⟩
      simpa using hp
    · rintro ⟨kv, hkv, hp⟩
      refine ⟨kv, hkv, ?_⟩
      simpa using hp
  constructor
  · constructor
    · rintro ⟨v, s, t2, hmem⟩
      exact hpos.mp ((hiff v s t2).mp hmem).1
    · intro habs
      refine ⟨_, _, _, (hiff _ _ _).mpr ⟨hpos.mpr habs, rfl, rfl, rfl⟩⟩
  · intro v s t2 hmem
    rcases (hiff v s t2).mp hmem with ⟨hz, _, _, ht2⟩
    rcases hpos.mp hz with ⟨kv0, hkv0, habs0⟩
    have hlow := strafeAll_lowest cfg (walkAll bf ssvc).styled_slots
      (walkAll bf ssvc).all_votes (last_votes bf)
    have hle := lowestPair_le (walkAll bf ssvc).styled_slots (last_votes bf)
      (2 ^ 64 - 1, 0)
    rcases lowestPair_cases (walkAll bf ssvc).styled_slots (last_votes bf)
        (2 ^ 64 - 1, 0) with hcase | ⟨kv, hkv, habs, heq⟩
    · exfalso
      have h1 := hle.2 kv0 hkv0 habs0
      have h2 := hbound kv0 hkv0
      rw [hcase] at h1
      simp at h1
      omega
    · refine ⟨kv, hkv, habs, ?_, ?_⟩
      · intro kv2 hkv2 habs2
        have := hle.2 kv2 hkv2 habs2
        rw [heq] at this
        simpa using this
      · rw [ht2]
        have : (strafeAll cfg (walkAll bf ssvc).styled_slots
            (walkAll bf ssvc).all_votes (last_votes bf)).lowest_total_stake =
            (lowestPair (walkAll bf ssvc).styled_slots (last_votes bf)
              (2 ^ 64 - 1, 0)).2 := by
          rw [← hlow]
        rw [this, heq]

theorem C9_absent_summary_witness :
    slot_stake_and_vote_count (last_votes cexC6) = some cexC6ssvc ∧
    graphStmts cexC6 cfgPlain = some cexC6stmts ∧
    (∀ kv ∈ last_votes cexC6, kv.2.slot < 2 ^ 64 - 1) ∧
    (((∃ v s t2, Stmt.absentSummary v s t2 ∈ cexC6stmts) ↔
      ∃ kv ∈ last_votes cexC6,
        kv.2.slot ∉ (walkAll cexC6 cexC6ssvc).styled_slots) ∧
    ∀ v s t2, Stmt.absentSummary v s t2 ∈ cexC6stmts →
      ∃ kv ∈ last_votes cexC6,
        kv.2.slot ∉ (walkAll cexC6 cexC6ssvc).styled_slots ∧
        (∀ kv2 ∈ last_votes cexC6,
          kv2.2.slot ∉ (walkAll cexC6 cexC6ssvc).styled_slots →
          kv.2.slot ≤ kv2.2.slot) ∧
        t2 = kv.2.total_stake) :=
  ⟨by decide, by decide, by decide,
    C9_absent_summary cexC6 cfgPlain cexC6ssvc cexC6stmts (by decide)
      (by decide) (by decide)⟩

theorem strafeStep_all_votes (cfg : GraphConfig) (styled : List Slot)
    (st : StrafeState) (kv : Pubkey × LastVote) :
    (strafeStep cfg styled st kv).all_votes =
      (match assocFind kv.1 st.all_votes with
       | none => st.all_votes
       | some inner =>
         st.all_votes.map (fun e =>
           if e.1 = kv.1 then (kv.1, inner.filter (fun p => ¬ p.1 = kv.2.slot))
           else e)) := by
  unfold strafeStep
  by_cases hp : kv.2.slot ∈ styled <;>
    cases he : cfg.vote_account_mode.is_enabled <;>
    cases h0 : assocFind kv.1 st.all_votes <;>
    simp [hp, he, h0]

theorem noPair_after_step (cfg : GraphConfig) (styled : List Slot)
    (st : StrafeState) (pk : Nat) (r : LastVote) :
    ∀ e ∈ (strafeStep cfg styled st (pk, r)).all_votes, e.1 = pk →
      ∀ sv ∈ e.2, sv.1 ≠ r.slot := by
  intro e he hk sv hsv
  rw [strafeStep_all_votes] at he
  cases h0 : assocFind pk st.all_votes with
  | none =>
    simp only [h0] at he
    exact absurd hk (assocFind_none h0 e he)
  | some inner =>
    simp only [h0] at he
    rcases List.mem_map.mp he with ⟨e0, he0, rfl⟩
    by_cases h1 : e0.1 = pk
    · rw [if_pos h1] at hsv
      simp only at hsv
      have := List.of_mem_filter hsv
      simpa using this
    · rw [if_neg h1] at hk
      exact absurd hk h1

theorem noPair_mono (cfg : GraphConfig) (styled : List Slot)
    (st : StrafeState) (kv : Pubkey × LastVote) (pk : Nat) (s : Nat)
    (h : ∀ e ∈ st.all_votes, e.1 = pk → ∀ sv ∈ e.2, sv.1 ≠ s) :
    ∀ e ∈ (strafeStep cfg styled st kv).all_votes, e.1 = pk →
      ∀ sv ∈ e.2, sv.1 ≠ s := by
  intro e he hk sv hsv
  rw [strafeStep_all_votes] at he
  cases h0 : assocFind kv.1 st.all_votes with
  | none =>
    simp only [h0] at he
    exact h e he hk sv hsv
  | some inner =>
    simp only [h0] at he
    rcases List.mem_map.mp he with ⟨e0, he0, rfl⟩
    by_cases h1 : e0.1 = kv.1
    · rw [if_pos h1] at hk hsv
      simp only at hk hsv
      have hsv2 : sv ∈ inner := List.mem_of_mem_filter hsv
      exact h (kv.1, inner) (assocFind_mem h0) hk sv hsv2
    · rw [if_neg h1] at hk hsv
      exact h e0 he0 hk sv hsv

theorem noPair_fold (cfg : GraphConfig) (styled : List Slot) (pk : Nat)
    (s : Nat) :
    ∀ (l : List (Pubkey × LastVote)) (st : StrafeState),
      (∀ e ∈ st.all_votes, e.1 = pk → ∀ sv ∈ e.2, sv.1 ≠ s) →
      ∀ e ∈ (l.foldl (strafeStep cfg styled) st).all_votes, e.1 = pk →
        ∀ sv ∈ e.2, sv.1 ≠ s := by
  intro l
  induction l with
  | nil => intro st h; exact h
  | cons kv t ih =>
    intro st h
    rw [List.foldl_cons]
    exact ih _ (noPair_mono cfg styled st kv pk s h)

theorem strafe_removes (cfg : GraphConfig) (styled : List Slot)
    (l : List (Pubkey × LastVote)) (st : StrafeState) (pk : Nat)
    (r : LastVote) (hmem : (pk, r) ∈ l) :
    ∀ e ∈ (l.foldl (strafeStep cfg styled) st).all_votes, e.1 = pk →
      ∀ sv ∈ e.2, sv.1 ≠ r.slot := by
  rcases List.append_of_mem hmem with ⟨l1, l2, rfl⟩
  rw [List.foldl_append, List.foldl_cons]
  exact noPair_fold cfg styled pk r.slot l2 _
    (noPair_after_step cfg styled _ pk r)

theorem mem_allVotesStmts_pair (styled : List Slot) (av : AllVotes)
    (pk s : Nat) :
    ∀ x ∈ allVotesStmts styled av,
      ((∃ root hist, x = Stmt.allVotesNode pk s root hist) ∨
        (∃ pres, x = Stmt.allVotesEdge pk s pres)) →
      ∃ e ∈ av, e.1 = pk ∧ ∃ sv ∈ e.2, sv.1 = s := by
  intro x hx hform
  unfold allVotesStmts at hx
  rcases List.mem_flatMap.mp hx with ⟨e, he, hin⟩
  rcases List.mem_flatMap.mp hin with ⟨sv, hsv, hin2⟩
  rcases List.mem_cons.mp hin2 with rfl | h2
  · rcases hform with ⟨root, hist, heq⟩ | ⟨pres, heq⟩
    · injection heq with h1 h2 _ _
      exact ⟨e, he, h1, sv, hsv, h2⟩
    · exact absurd heq (by simp)
  · rcases List.mem_cons.mp h2 with rfl | h3
    · rcases hform with ⟨root, hist, heq⟩ | ⟨pres, heq⟩
      · exact absurd heq (by simp)
      · injection heq with h1 h2 _
        exact ⟨e, he, h1, sv, hsv, h2⟩
    · simp at h3

/-- C10: before the include-all-votes pass each validator's own
last-vote slot is removed from the all-votes index, so no dotted
all-votes node or edge is ever emitted for the slot of a validator's
retained `LastVote`. -/
theorem C10_no_lastvote_in_allvotes (bf : BankForks) (cfg : GraphConfig)
    (ssvc : List (Slot × (Nat × Nat × Nat))) (stmts : List Stmt)
    (hss : slot_stake_and_vote_count (last_votes bf) = some ssvc)
    (hst : graphStmts bf cfg = some stmts)
    (pk : Nat) (r : LastVote)
    (hr : assocFind pk (last_votes bf) = some r) :
    (∀ root hist, Stmt.allVotesNode pk r.slot root hist ∉ stmts) ∧
    (∀ pres, Stmt.allVotesEdge pk r.slot pres ∉ stmts) := by
  simp only [graphStmts, hss] at hst
  have hbig := Option.some.inj hst
  subst hbig
  have hnopair : ∀ e ∈ (strafeAll cfg (walkAll bf ssvc).styled_slots
      (walkAll bf ssvc).all_votes (last_votes bf)).all_votes, e.1 = pk →
      ∀ sv ∈ e.2, sv.1 ≠ r.slot := by
    unfold strafeAll
    exact strafe_removes cfg _ _ _ pk r (assocFind_mem hr)
  have hdispatch : ∀ x : Stmt,
      ((∃ root hist, x = Stmt.allVotesNode pk r.slot root hist) ∨
        (∃ pres, x = Stmt.allVotesEdge pk r.slot pres)) →
      x ∉ ([Stmt.raw "digraph \x7b", Stmt.raw "  subgraph cluster_banks \x7b",
        Stmt.raw "    style=invis"] ++
       (walkAll bf ssvc).stmts ++ [Stmt.raw "  \x7d"] ++
       (strafeAll cfg (walkAll bf ssvc).styled_slots
         (walkAll bf ssvc).all_votes (last_votes bf)).stmts ++
       (if (strafeAll cfg (walkAll bf ssvc).styled_slots
           (walkAll bf ssvc).all_votes (last_votes bf)).absent_votes > 0 then
          [Stmt.absentSummary
            (strafeAll cfg (walkAll bf ssvc).styled_slots
              (walkAll bf ssvc).all_votes (last_votes bf)).absent_votes
            (strafeAll cfg (walkAll bf ssvc).styled_slots
              (walkAll bf ssvc).all_votes (last_votes bf)).absent_stake
            (strafeAll cfg (walkAll bf ssvc).styled_slots
              (walkAll bf ssvc).all_votes (last_votes bf)).lowest_total_stake]
        else []) ++
       (if cfg.include_all_votes then
          allVotesStmts (walkAll bf ssvc).styled_slots
            (strafeAll cfg (walkAll bf ssvc).styled_slots
              (walkAll bf ssvc).all_votes (last_votes bf)).all_votes
        else []) ++
       [Stmt.raw "\x7d"]) := by
    intro x hform hmem
    have hav : allvotish x = true := by
      rcases hform with ⟨root, hist, rfl⟩ | ⟨pres, rfl⟩ <;> rfl
    simp only [List.mem_append] at hmem
    rcases hmem with ((((((h | h) | h) | h) | h) | h) | h)
    · rcases hform with ⟨root, hist, rfl⟩ | ⟨pres, rfl⟩ <;> simp at h
    · have := walkAll_stmts_shape _ h
      rcases hform with ⟨root, hist, rfl⟩ | ⟨pres, rfl⟩ <;>
        simp [walkish] at this
    · rcases hform with ⟨root, hist, rfl⟩ | ⟨pres, rfl⟩ <;> simp at h
    · have := strafeAll_stmts_shape cfg _ _ _ _ h
      rcases hform with ⟨root, hist, rfl⟩ | ⟨pres, rfl⟩ <;>
        simp [strafish] at this
    · split at h
      · simp only [List.mem_singleton] at h
        rcases hform with ⟨root, hist, rfl⟩ | ⟨pres, rfl⟩ <;> simp at h
      · simp at h
    · split at h
      · rcases mem_allVotesStmts_pair _ _ pk r.slot x h hform with
          ⟨e, he, hk, sv, hsv, hs⟩
        exact hnopair e he hk sv hsv hs
      · simp at h
    · rcases hform with ⟨root, hist, rfl⟩ | ⟨pres, rfl⟩ <;> simp at h
  constructor
  · intro root hist hmem
    exact hdispatch _ (Or.inl ⟨root, hist, rfl⟩) hmem
  · intro pres hmem
    exact hdispatch _ (Or.inr ⟨pres, rfl⟩) hmem

theorem C10_no_lastvote_in_allvotes_witness :
    slot_stake_and_vote_count (last_votes cexC6) = some cexC6ssvc ∧
    graphStmts cexC6 cfgAll = some cexC6stmtsAll ∧
    assocFind 7 (last_votes cexC6) = some cexC6lv ∧
    ((∀ root hist,
      Stmt.allVotesNode 7 cexC6lv.slot root hist ∉ cexC6stmtsAll) ∧
    (∀ pres, Stmt.allVotesEdge 7 cexC6lv.slot pres ∉ cexC6stmtsAll)) :=
  ⟨by decide, by decide, by decide,
    C10_no_lastvote_in_allvotes cexC6 cfgAll cexC6ssvc cexC6stmtsAll
      (by decide) (by decide) 7 cexC6lv (by decide)⟩

theorem find?_eq_of_perm {α : Type} {p : α → Bool} {l1 l2 : List α}
    (hperm : l1.Perm l2)
    (hu : ∀ a ∈ l1, ∀ b ∈ l1, p a = true → p b = true → a = b) :
    l1.find? p = l2.find? p := by
  cases h1 : l1.find? p with
  | none =>
    cases h2 : l2.find? p with
    | none => rfl
    | some b =>
      have hb := List.mem_of_find?_eq_some h2
      have hpb := List.find?_some h2
      have hb1 : b ∈ l1 := hperm.symm.subset hb
      have := List.find?_eq_none.mp h1 b hb1
      simp [hpb] at this
  | some a =>
    have ha := List.mem_of_find?_eq_some h1
    have hpa := List.find?_some h1
    have ha2 : a ∈ l2 := hperm.subset ha
    cases h2 : l2.find? p with
    | none =>
      have := List.find?_eq_none.mp h2 a ha2
      simp [hpa] at this
    | some b =>
      have hb2 := List.mem_of_find?_eq_some h2
      have hpb := List.find?_some h2
      have hb1 : b ∈ l1 := hperm.symm.subset hb2
      rw [hu a ha b hb1 hpa hpb]

theorem findBank_perm {bf1 bf2 : BankForks} (hperm : bf1.banks.Perm bf2.banks)
    (hnd : NodupSlots bf1) (s : Nat) : findBank bf1 s = findBank bf2 s := by
  unfold findBank
  apply find?_eq_of_perm hperm
  intro a ha b hb hpa hpb
  have ha2 : a.slot = s := of_decide_eq_true hpa
  have hb2 : b.slot = s := of_decide_eq_true hpb
  exact slot_inj hnd a ha b hb (by rw [ha2, hb2])

theorem parentsAux_perm {bf1 bf2 : BankForks}
    (hperm : bf1.banks.Perm bf2.banks) (hnd : NodupSlots bf1) :
    ∀ (fuel : Nat) (b : Bank), parentsAux bf1 fuel b = parentsAux bf2 fuel b := by
  intro fuel
  induction fuel with
  | zero => intro b; rfl
  | succ n ih =>
    intro b
    simp only [parentsAux]
    have hpi : b.parentIn bf1 = b.parentIn bf2 := by
      unfold Bank.parentIn
      cases hps : b.parent_slot with
      | none => rfl
      | some ps => simp [findBank_perm hperm hnd]
    rw [hpi]
    cases hp : b.parentIn bf2 with
    | none => rfl
    | some p =>
      simp only []
      rw [ih p]

/-- C1 (amended): the pipeline performs no sorting, so the serialized
bytes depend on the iteration order of the input collection (see the
counterexample); the resolved tip set, however, is iteration-order
independent — permuting the bank collection leaves `fork_slots`
membership unchanged. -/
theorem C1_amended (bf1 bf2 : BankForks) (s : Nat)
    (hperm : bf1.banks.Perm bf2.banks) (hnd : NodupSlots bf1) :
    s ∈ fork_slots bf1 ↔ s ∈ fork_slots bf2 := by
  have hpin : ∀ b : Bank, b.parentsIn bf1 = b.parentsIn bf2 := by
    intro b
    unfold Bank.parentsIn
    exact parentsAux_perm hperm hnd _ b
  have hkeys : s ∈ bf1.banks.map Bank.slot ↔ s ∈ bf2.banks.map Bank.slot :=
    (hperm.map Bank.slot).mem_iff
  have hpar : s ∈ bf1.banks.flatMap (fun b => (b.parentsIn bf1).map Bank.slot) ↔
      s ∈ bf2.banks.flatMap (fun b => (b.parentsIn bf2).map Bank.slot) := by
    constructor
    · intro h
      rcases List.mem_flatMap.mp h with ⟨b, hb, hin⟩
      exact List.mem_flatMap.mpr ⟨b, hperm.subset hb, by rw [← hpin b]; exact hin⟩
    · intro h
      rcases List.mem_flatMap.mp h with ⟨b, hb, hin⟩
      exact List.mem_flatMap.mpr
        ⟨b, hperm.symm.subset hb, by rw [hpin b]; exact hin⟩
  rw [mem_fork_slots, mem_fork_slots]
  constructor
  · rintro ⟨h1, h2⟩
    exact ⟨hkeys.mp h1, fun hc => h2 (hpar.mpr hc)⟩
  · rintro ⟨h1, h2⟩
    exact ⟨hkeys.mpr h1, fun hc => h2 (hpar.mp hc)⟩

theorem C1_amended_witness :
    cexOrder1.banks.Perm cexOrder2.banks ∧ NodupSlots cexOrder1 ∧
      (1 ∈ fork_slots cexOrder1 ↔ 1 ∈ fork_slots cexOrder2) :=
  ⟨by decide, by decide, C1_amended cexOrder1 cexOrder2 1 (by decide) (by decide)⟩

end LedgerTool
